import Mathlib

/-!
Verification development for the bumpversion2 version model and file
transformation engine.  The definitions below are shallow embeddings of
the Python sources `bumpversion/functions.py`, `bumpversion/version_part.py`
and `bumpversion/utils.py`.  Stateful file access is modelled by explicit
state passing; machine level details that cannot occur in the modelled
domain (unicode digit classes, exotic line separators) are noted at the
definition that abstracts them.
-/

deriving instance DecidableEq for Except

namespace Bumpversion

/-! ### Generic string and association list helpers -/

/-- Substring test, the model of the Python expression `needle in hay`
for strings: some tail of `hay` starts with `needle`. -/
def isSubstr (needle hay : String) : Bool :=
  hay.toList.tails.any (fun t => needle.toList.isPrefixOf t)

/-- Character scanner behind `splitLinesPy`: each newline emits the line
collected so far; at the end a non-empty remainder is emitted as the last
line. -/
def splitLinesGo : List Char → List Char → List String
  | [], acc => if acc.isEmpty then [] else [String.mk acc]
  | c :: rest, acc =>
    if c = '\n' then String.mk acc :: splitLinesGo rest []
    else splitLinesGo rest (acc ++ [c])

/-- Model of Python `str.splitlines` for text whose only line separator is
the newline character: split on newline, a trailing separator produces no
trailing empty line, and the empty string has no lines. -/
def splitLinesPy (s : String) : List String :=
  splitLinesGo s.toList []

/-- First-match lookup in an association list, the model of Python
dictionary access. -/
def lookupD {α : Type} : List (String × α) → String → Option α
  | [], _ => none
  | (k, x) :: rest, q => if k = q then some x else lookupD rest q

/-- The keys of an association list. -/
def keysOf {α : Type} (m : List (String × α)) : List String :=
  m.map Prod.fst

/-- Model of Python dictionary assignment `m[k] = x`: overwrite in place
when the key exists, append otherwise. -/
def dictUpd {α : Type} (m : List (String × α)) (k : String) (x : α) :
    List (String × α) :=
  if k ∈ keysOf m then m.map (fun e => if e.1 = k then (k, x) else e)
  else m ++ [(k, x)]

/-! ### bumpversion/functions.py -/

/-- The decimal value of a digit run, the model of Python `int` on a string
of ASCII digits. -/
def digitsVal (cs : List Char) : Nat :=
  cs.foldl (fun acc c => acc * 10 + (c.toNat - 48)) 0

/-- Model of `NumericFunction.bump` (functions.py lines 42-47).  The code
applies `re.search` with the pattern capturing, in order, a maximal run of
non-digits, a maximal run of digits, and a `.`-star group.  Because the
dot does not match a newline, the captured suffix stops at the first
newline after the digit run; any later text is absent from the result.
Returns `none` when the value holds no digit (the Python code then fails
with an attribute error on the absent match object).  Digits are modelled
as the ASCII digits. -/
def numericBump (value : String) : Option String :=
  let cs := value.toList
  let pre := cs.takeWhile (fun c => !c.isDigit)
  let rest := cs.dropWhile (fun c => !c.isDigit)
  match rest with
  | [] => none
  | _ :: _ =>
    let run := rest.takeWhile (fun c => c.isDigit)
    let rest2 := rest.dropWhile (fun c => c.isDigit)
    let suffix := rest2.takeWhile (fun c => c ≠ '\n')
    some (String.mk pre ++ toString (digitsVal run + 1) ++ String.mk suffix)

/-- Model of Python `list.index`: position of the first occurrence. -/
def listIndex (vs : List String) (v : String) : Option Nat :=
  match vs with
  | [] => none
  | x :: rest => if x = v then some 0 else (listIndex rest v).map (· + 1)

/-- Model of `ValuesFunction.bump` (functions.py lines 96-104): look the
value up in the configured list and return the element one past it; an
out-of-range successor index becomes the terminal-value error, a value
that is not in the list at all surfaces the lookup error of `list.index`. -/
def valuesBump (vs : List String) (value : String) : Except String String :=
  match listIndex vs value with
  | none => .error "is not in list"
  | some i =>
    match vs[i + 1]? with
    | some nxt => .ok nxt
    | none => .error "The part has already the maximum value"

/-! ### bumpversion/version_part.py — parts and versions -/

/-- The per-part bump rule: `NumericFunction` or `ValuesFunction`. -/
inductive BumpFn
  | numeric
  | values (vs : List String)
  deriving DecidableEq, Repr

/-- Model of `PartConfiguration` (version_part.py lines 22-41) flattened
to its observable data: `first_value`, `optional_value`, `independent`
and the bump function. -/
structure PartConfig where
  firstValue : String
  optionalValue : String
  independent : Bool
  fn : BumpFn
  deriving DecidableEq, Repr

/-- The default part configuration `NumericVersionPartConfiguration()`:
a numeric function with first and optional value both the string 0 and
`independent` false. -/
def NumericVersionPartConfiguration : PartConfig :=
  { firstValue := "0", optionalValue := "0", independent := false, fn := .numeric }

/-- Dispatch of `PartConfiguration.bump` on the function class. -/
def fnBump (cfg : PartConfig) (value : String) : Except String String :=
  match cfg.fn with
  | .numeric =>
    match numericBump value with
    | some s => .ok s
    | none => .error "no digit in value"
  | .values vs => valuesBump vs value

/-- Model of `VersionPart` (version_part.py lines 52-96): the raw stored
value (`_value`, possibly absent when the capture group did not match)
plus the part configuration. -/
structure VersionPart where
  rawValue : Option String
  config : PartConfig
  deriving DecidableEq, Repr

/-- The `value` property: `self._value or self.config.optional_value`,
where the Python `or` replaces both an absent and an empty stored value
by the optional value. -/
def VersionPart.value (p : VersionPart) : String :=
  match p.rawValue with
  | none => p.config.optionalValue
  | some s => if s = "" then p.config.optionalValue else s

/-- `VersionPart.copy` (version_part.py lines 72-73): rebuilds the part
from the raw value only; the configuration argument is omitted, so the
copy carries the default numeric configuration. -/
def VersionPart.copy (p : VersionPart) : VersionPart :=
  { rawValue := p.rawValue, config := NumericVersionPartConfiguration }

/-- `VersionPart.bump`: apply the configured bump function to the
reported value and keep the configuration. -/
def VersionPart.bump (p : VersionPart) : Except String VersionPart :=
  (fnBump p.config p.value).map (fun s => { rawValue := some s, config := p.config })

/-- `VersionPart.is_optional`. -/
def VersionPart.isOptional (p : VersionPart) : Bool :=
  p.value = p.config.optionalValue

/-- `VersionPart.null`: the part reset to its first value, keeping the
configuration. -/
def VersionPart.null (p : VersionPart) : VersionPart :=
  { rawValue := some p.config.firstValue, config := p.config }

/-- Model of `Version` (version_part.py lines 99-137): the insertion
ordered mapping of part names to parts, plus the literal original
string. -/
structure Version where
  values : List (String × VersionPart)
  original : Option String
  deriving DecidableEq, Repr

/-- The loop of `Version.bump` (version_part.py lines 116-137): walk the
ordering; skip labels absent from the version; bump the requested part;
after the bump reset non-independent parts to `null` and copy the rest;
fail when the requested part never occurred. -/
def bumpGo (vals : List (String × VersionPart)) (partName : String) :
    List String → Bool → List (String × VersionPart) →
      Except String (List (String × VersionPart))
  | [], bumped, acc => if bumped then .ok acc else .error "No part named"
  | label :: rest, bumped, acc =>
    match lookupD vals label with
    | none => bumpGo vals partName rest bumped acc
    | some part =>
      if label = partName then
        match part.bump with
        | .error e => .error e
        | .ok np => bumpGo vals partName rest true (dictUpd acc label np)
      else if bumped && !part.config.independent then
        bumpGo vals partName rest bumped (dictUpd acc label part.null)
      else
        bumpGo vals partName rest bumped (dictUpd acc label part.copy)

/-- `Version.bump`: run the loop from an empty accumulator; the new
version has no original string. -/
def Version.bump (v : Version) (partName : String) (order : List String) :
    Except String Version :=
  (bumpGo v.values partName order false []).map
    (fun nv => { values := nv, original := none })


/-- The entries the bump loop produces for a run of labels that all
receive the same transformation. -/
def mapLabels (vals : List (String × VersionPart)) (f : VersionPart → VersionPart)
    (labels : List String) : List (String × VersionPart) :=
  labels.filterMap (fun l => (lookupD vals l).map (fun part => (l, f part)))

/-- The enumerated release part configuration of the C2 counterexample:
values dev and gamma, optional value gamma. -/
def cfgRelease : PartConfig :=
  { firstValue := "dev", optionalValue := "gamma", independent := false,
    fn := .values ["dev", "gamma"] }

/-- Example for C2: a version with an enumerated optional part (stored
raw value absent, optional value gamma) before the bumped part. -/
def vC2 : Version :=
  { values := [
      ("release", { rawValue := none, config := cfgRelease }),
      ("major", { rawValue := some "1", config := NumericVersionPartConfiguration })],
    original := none }

/-- The result the code produces for `vC2.bump major [release, major]`. -/
def wC2 : Version :=
  { values := [
      ("release", { rawValue := none, config := NumericVersionPartConfiguration }),
      ("major", { rawValue := some "2", config := NumericVersionPartConfiguration })],
    original := none }

/-- An independent numeric part configuration used by the C2 witness. -/
def cfgIndep : PartConfig :=
  { firstValue := "5", optionalValue := "5", independent := true, fn := .numeric }

/-- Version bumped in the C2 witness: parts a, p, b and the independent c. -/
def vW2 : Version :=
  { values := [
      ("a", { rawValue := some "1", config := NumericVersionPartConfiguration }),
      ("p", { rawValue := some "2", config := NumericVersionPartConfiguration }),
      ("b", { rawValue := some "3", config := NumericVersionPartConfiguration }),
      ("c", { rawValue := some "9", config := cfgIndep })],
    original := none }

/-- Expected result of bumping p in `vW2` under the ordering a p b c. -/
def wW2 : Version :=
  { values := [
      ("a", { rawValue := some "1", config := NumericVersionPartConfiguration }),
      ("p", { rawValue := some "3", config := NumericVersionPartConfiguration }),
      ("b", { rawValue := some "0", config := NumericVersionPartConfiguration }),
      ("c", { rawValue := some "9", config := NumericVersionPartConfiguration })],
    original := none }

/-- Version with a part (extra) that the ordering does not mention. -/
def vC10 : Version :=
  { values := [
      ("major", { rawValue := some "1", config := NumericVersionPartConfiguration }),
      ("extra", { rawValue := some "7", config := NumericVersionPartConfiguration })],
    original := none }

/-- Result of bumping major in `vC10` under the ordering [major]. -/
def wC10 : Version :=
  { values := [
      ("major", { rawValue := some "2", config := NumericVersionPartConfiguration })],
    original := none }

/-! ### bumpversion/version_part.py — serialization -/

/-- The error kinds of the serialization and rewriting pipeline. -/
inductive PvError
  | missingValue (k : String)
  | incomplete
  | keyError (msg : String)
  | versionNotFound (expr : String)
  | ioError (path : String)
  | typeError
  deriving DecidableEq, Repr

/-- The opening brace character. -/
def lbrace : Char := Char.ofNat 123

/-- The closing brace character. -/
def rbrace : Char := Char.ofNat 125

/-- Fueled scanner behind `formatParse`; every step consumes at least one
character, so fuel equal to the length never runs out. -/
def formatParseGo : Nat → List Char → List (String × Option String)
  | _, [] => []
  | 0, _ => []
  | fuel + 1, cs =>
    let lit := cs.takeWhile (fun c => c ≠ lbrace)
    let rest := cs.dropWhile (fun c => c ≠ lbrace)
    match rest with
    | [] => [(String.mk lit, none)]
    | _ :: rest2 =>
      let field := rest2.takeWhile (fun c => c ≠ rbrace)
      let rest3 := (rest2.dropWhile (fun c => c ≠ rbrace)).drop 1
      (String.mk lit, some (String.mk field)) :: formatParseGo fuel rest3

/-- Model of Python `string.Formatter().parse` for format strings made of
literal text and simple named placeholder fields, the shape every
bumpversion serialization template uses (no brace escapes, conversions or
format specs): the parse yields the list of (literal text, field name)
segments, a trailing literal contributing a final field-free segment. -/
def formatParse (s : String) : List (String × Option String) :=
  formatParseGo s.length s.toList

/-- `labels_for_format` (version_part.py lines 140-143): the non-empty
field names of a template, in order. -/
def labelsForFormat (f : String) : List String :=
  ((formatParse f).filterMap Prod.snd).filter (fun l => l ≠ "")

/-- Expansion of a parsed template over a partial mapping, the model of
Python `str.format(**values)`: a field whose name is not in the mapping
raises the KeyError carrying that name. -/
def renderSegs : List (String × Option String) → (String → Option String) →
    Except String String
  | [], _ => .ok ""
  | (lit, none) :: rest, valueOf => (renderSegs rest valueOf).map (fun t => lit ++ t)
  | (lit, some f) :: rest, valueOf =>
    match valueOf f with
    | none => .error f
    | some s => (renderSegs rest valueOf).map (fun t => lit ++ s ++ t)

/-- Model of `VersionConfig` (version_part.py lines 146-166) restricted
to the data the serialization and rewriting paths read: the ordered
serialization templates and the search and replace templates.  The parse
regex is modelled separately (`parseMajor`) for a concrete schema. -/
structure VersionConfig where
  serializeFormats : List String
  search : String
  replace : String
  deriving DecidableEq, Repr

/-- `VersionConfig.order` (version_part.py lines 168-171): the labels of
the first serialization format.  The source indexes `serialize_formats[0]`;
configurations always carry at least one format. -/
def VersionConfig.order (cfg : VersionConfig) : List String :=
  labelsForFormat (cfg.serializeFormats.headD "")

/-- The template-expansion environment of `_serialize`: a context copy
overridden by the version's parts (version_part.py lines 215-217).
Context entries are plain strings, version entries are parts. -/
def mkValues (ctx : List (String × String)) (v : Version) (k : String) :
    Option (VersionPart ⊕ String) :=
  match lookupD v.values k with
  | some p => some (.inl p)
  | none => (lookupD ctx k).map .inr

/-- How a value renders in a format field: a part renders as its reported
value (`VersionPart.__format__`), a context string as itself. -/
def partOrStr : VersionPart ⊕ String → String
  | .inl p => p.value
  | .inr s => s

/-- The scan of `_serialize` (version_part.py lines 233-245) computing
`keys_needing_representation`: walk the order keys with their index;
a key absent from the environment raises KeyError; string values are
skipped; each non-optional part widens the needed set to the order
prefix up to and including it. -/
def keysNeedingGo (vals : String → Option (VersionPart ⊕ String))
    (allKeys : List String) :
    List String → Nat → List String → Except String (List String)
  | [], _, acc => .ok acc
  | k :: rest, i, acc =>
    match vals k with
    | none => .error k
    | some (.inr _) => keysNeedingGo vals allKeys rest (i + 1) acc
    | some (.inl part) =>
      if part.isOptional then keysNeedingGo vals allKeys rest (i + 1) acc
      else keysNeedingGo vals allKeys rest (i + 1) (allKeys.take (i + 1))

/-- Model of `VersionConfig._serialize` (version_part.py lines 207-259):
format the version over the merged environment (a missing format key is
the fatal missing-value error), compute the keys needing representation,
and when `raise_if_incomplete` is set fail with the incomplete error
unless every needed key is a label of the template. -/
def serializeOne (cfg : VersionConfig) (v : Version) (ctx : List (String × String))
    (f : String) (raiseIfIncomplete : Bool) : Except PvError String :=
  let vals := mkValues ctx v
  match renderSegs (formatParse f) (fun k => (vals k).map partOrStr) with
  | .error k => .error (.missingValue k)
  | .ok serialized =>
    match keysNeedingGo vals cfg.order cfg.order 0 [] with
    | .error k => .error (.keyError k)
    | .ok keysNeeding =>
      if raiseIfIncomplete &&
          !(keysNeeding.all (fun k => decide (k ∈ labelsForFormat f))) then
        .error .incomplete
      else .ok serialized

/-- The loop of `VersionConfig._choose_serialize_format` (version_part.py
lines 261-303).  A usable (complete) format replaces the current choice
when there is no choice yet, the choice is the empty (falsy) string, or
the candidate parses into strictly fewer segments; an incomplete format
becomes the choice only when there is no (truthy) choice; a missing-value
error is re-raised.  At the end a missing or falsy choice raises the
did-not-find KeyError. -/
def chooseGo (cfg : VersionConfig) (v : Version) (ctx : List (String × String)) :
    List String → Option String → Except PvError String
  | [], chosen =>
    match chosen with
    | some c =>
      if c = "" then .error (.keyError "Did not find suitable serialization format")
      else .ok c
    | none => .error (.keyError "Did not find suitable serialization format")
  | f :: rest, chosen =>
    match serializeOne cfg v ctx f true with
    | .ok _ =>
      let doReplace :=
        match chosen with
        | none => true
        | some c => decide (c = "") || decide ((formatParse f).length < (formatParse c).length)
      chooseGo cfg v ctx rest (if doReplace then some f else chosen)
    | .error .incomplete =>
      chooseGo cfg v ctx rest
        (match chosen with
         | none => some f
         | some c => if c = "" then some f else some c)
    | .error e => .error e

/-- `VersionConfig._choose_serialize_format` run over the configured
formats. -/
def chooseSerializeFormat (cfg : VersionConfig) (v : Version)
    (ctx : List (String × String)) : Except PvError String :=
  chooseGo cfg v ctx cfg.serializeFormats none

/-- `VersionConfig.serialize` (version_part.py lines 305-310): serialize
with the chosen format, without the incompleteness check. -/
def serialize (cfg : VersionConfig) (v : Version)
    (ctx : List (String × String)) : Except PvError String :=
  match chooseSerializeFormat cfg v ctx with
  | .error e => .error e
  | .ok f => serializeOne cfg v ctx f false

/-- A template is complete for a version and context when the strict
serialization succeeds. -/
def isCompleteFmt (cfg : VersionConfig) (v : Version)
    (ctx : List (String × String)) (f : String) : Bool :=
  match serializeOne cfg v ctx f true with
  | .ok _ => true
  | .error _ => false

/-- Config of the C1 counterexample: the empty template first. -/
def cfgC1 : VersionConfig :=
  { serializeFormats := ["", "{major}"], search := "{current_version}",
    replace := "{new_version}" }

/-- Single-part version used by the C1 counterexample. -/
def vC1 : Version :=
  { values := [("major", { rawValue := some "1", config := NumericVersionPartConfiguration })],
    original := none }

/-- Config of the C1 witness: a two-part template then a one-part one. -/
def cfgW1 : VersionConfig :=
  { serializeFormats := ["{major}.{minor}", "{major}"], search := "{current_version}",
    replace := "{new_version}" }

/-- Version of the C1 witness: major non-optional, minor at its optional
value, so the shorter template is complete and is chosen. -/
def vW1 : Version :=
  { values := [
      ("major", { rawValue := some "1", config := NumericVersionPartConfiguration }),
      ("minor", { rawValue := some "0", config := NumericVersionPartConfiguration })],
    original := none }

/-! ### bumpversion/version_part.py — parsing a concrete schema -/

/-- The leftmost maximal digit run of a character list: what `re.search`
captures for the pattern of one-plus digits. -/
def parseMajorRun (cs : List Char) : Option (List Char) :=
  let rest := cs.dropWhile (fun c => !c.isDigit)
  match rest with
  | [] => none
  | _ :: _ => some (rest.takeWhile (fun c => c.isDigit))

/-- Model of `VersionConfig.parse` (version_part.py lines 173-205) for the
concrete parse regular expression holding one named group `major` that
matches one or more digits: an empty input or a failed search returns the
unparsed sentinel; otherwise the leftmost maximal digit run becomes the
major part under the configured part schema (default numeric when none is
configured), and the version keeps the input as its original string. -/
def parseMajor (partCfg : PartConfig) (versionString : String) : Option Version :=
  if versionString = "" then none
  else
    match parseMajorRun versionString.toList with
    | none => none
    | some run =>
      some { values := [("major", { rawValue := some (String.mk run), config := partCfg })],
             original := some versionString }

/-- Config of the round-trip schema: serialize the major part alone. -/
def cfgC3 : VersionConfig :=
  { serializeFormats := ["{major}"], search := "{current_version}",
    replace := "{new_version}" }

/-- A version holding a single major part with the given stored value. -/
def mkMajorVersion (s : String) (cfgP : PartConfig) : Version :=
  { values := [("major", { rawValue := some s, config := cfgP })], original := none }

/-- The C3 counterexample version: major stores the value 1x, which the
digit-run regex does not re-capture in full. -/
def vBad3 : Version := mkMajorVersion "1x" NumericVersionPartConfiguration

/-- The version the parse regex actually recovers from the serialized
form of `vBad3`. -/
def wBad3 : Version :=
  { values := [("major", { rawValue := some "1", config := NumericVersionPartConfiguration })],
    original := some "1x" }

/-! ### bumpversion/utils.py — ConfiguredFile.contains -/

/-- The acceptance test of the `contains` loop (utils.py lines 87-91):
the first search line is a substring of the first window line, the last
search line is a substring of the last window line, and the interior
lines (index 1 to -2, Python slice semantics) are equal lists. -/
def matchWindow (sl lb : List String) : Bool :=
  isSubstr (sl.headD "") (lb.headD "") && isSubstr (sl.getLastD "") (lb.getLastD "") &&
    ((sl.drop 1).dropLast == (lb.drop 1).dropLast)

/-- The sliding-window loop of `ConfiguredFile.contains` (utils.py lines
81-99): append each file line to the lookbehind buffer, trim the buffer
to the search line count, and accept as soon as the window test holds. -/
def containsGo (sl : List String) : List String → List String → Bool
  | _, [] => false
  | lb, line :: rest =>
    let lb2 := if sl.length < (lb ++ [line]).length then (lb ++ [line]).drop 1
               else lb ++ [line]
    if matchWindow sl lb2 then true else containsGo sl lb2 rest

/-- Model of `ConfiguredFile.contains` (utils.py lines 73-100) over the
file's lines: an empty (falsy) search is never contained; otherwise the
search is split into lines and the window loop runs. -/
def containsStr (fileLines : List String) (search : String) : Bool :=
  if search = "" then false
  else containsGo (splitLinesPy search) [] fileLines

/-- `contains` applied to the possibly absent original version string:
`None` is falsy, so an absent original is never contained. -/
def containsOptStr (fileLines : List String) : Option String → Bool
  | none => false
  | some s => containsStr fileLines s

/-- The last `n` elements of a list (used to describe the lookbehind
buffer of the contains loop). -/
def takeRight {α : Type} (n : Nat) (l : List α) : List α :=
  l.drop (l.length - n)

/-- The window acceptance condition of the specification, on a window of
exactly the search's line count. -/
def specWindowAtB (sl w : List String) : Bool :=
  (w.length == sl.length) && isSubstr (sl.headD "") (w.headD "") &&
    isSubstr (sl.getLastD "") (w.getLastD "") &&
    ((sl.drop 1).dropLast == (w.drop 1).dropLast)

/-- The specification's contains condition: some window of consecutive
file lines, of the search's line count, passes the window test. -/
def containsSpecB (sl fileLines : List String) : Bool :=
  (List.range (fileLines.length + 1)).any
    (fun i => decide (i + sl.length ≤ fileLines.length) &&
      specWindowAtB sl ((fileLines.drop i).take sl.length))

/-- Both lines of a two-line search occurring as substrings of the very
first file line: the extra acceptance of the code's loop on its partially
filled lookbehind buffer. -/
def firstLineBothB (sl fileLines : List String) : Bool :=
  match fileLines with
  | [] => false
  | l0 :: _ => isSubstr (sl.headD "") l0 && isSubstr (sl.getLastD "") l0

/-! ### bumpversion/utils.py — should_contain_version -/

/-- Model of `ConfiguredFile.should_contain_version` (utils.py lines
43-71) over the file's lines: set `current_version` in the context to the
serialized version, expand the search template, accept when the file
contains the expansion; otherwise, when the search template is the
unmodified default, also accept when the file contains the literal
original string; otherwise raise version-not-found.  Serialization
errors and a missing key in the search template propagate. -/
def shouldContainVersion (cfg : VersionConfig) (fileLines : List String)
    (version : Version) (ctx : List (String × String)) : Except PvError Unit :=
  match serialize cfg version ctx with
  | .error e => .error e
  | .ok cur =>
    let ctx2 := dictUpd ctx "current_version" cur
    match renderSegs (formatParse cfg.search) (fun k => lookupD ctx2 k) with
    | .error k => .error (.keyError k)
    | .ok searchExpression =>
      if containsStr fileLines searchExpression then .ok ()
      else if cfg.search = "{current_version}" &&
          containsOptStr fileLines version.original then .ok ()
      else .error (.versionNotFound searchExpression)

/-- Version used by the C4 witness, with an original string. -/
def vW4 : Version :=
  { values := [("major", { rawValue := some "1", config := NumericVersionPartConfiguration })],
    original := some "1" }

/-! ### bumpversion/utils.py — the file system model (C9) -/

/-- The file system: a mapping of paths to text contents. -/
abbrev FS := List (String × String)

/-- The lines `contains` reads from a file: readlines followed by
rstrip of the trailing newline, which for newline-separated text agrees
with splitlines. -/
def fileLinesOf (content : String) : List String :=
  splitLinesPy content

/-- Opening a file for reading: returns the content without changing the
file system; a missing file is the io error. -/
def readFileFS (fs : FS) (path : String) : (Except PvError String) × FS :=
  (match lookupD fs path with
   | none => .error (.ioError path)
   | some content => .ok content, fs)

/-- `ConfiguredFile.contains` against the file system: the falsy-search
check precedes the open, so an absent or empty search reads nothing. -/
def containsFS (fs : FS) (path : String) (search : Option String) :
    (Except PvError Bool) × FS :=
  match search with
  | none => (.ok false, fs)
  | some s =>
    if s = "" then (.ok false, fs)
    else
      let res := readFileFS fs path
      match res.1 with
      | .error e => (.error e, res.2)
      | .ok content => (.ok (containsGo (splitLinesPy s) [] (fileLinesOf content)), res.2)

/-- `ConfiguredFile.should_contain_version` against the file system,
threading the state through every file operation it performs. -/
def shouldContainVersionFS (cfg : VersionConfig) (fs : FS) (path : String)
    (version : Version) (ctx : List (String × String)) :
    (Except PvError Unit) × FS :=
  match serialize cfg version ctx with
  | .error e => (.error e, fs)
  | .ok cur =>
    let ctx2 := dictUpd ctx "current_version" cur
    match renderSegs (formatParse cfg.search) (fun k => lookupD ctx2 k) with
    | .error k => (.error (.keyError k), fs)
    | .ok searchExpression =>
      let r1 := containsFS fs path (some searchExpression)
      match r1.1 with
      | .error e => (.error e, r1.2)
      | .ok true => (.ok (), r1.2)
      | .ok false =>
        if cfg.search = "{current_version}" then
          let r2 := containsFS r1.2 path version.original
          match r2.1 with
          | .error e => (.error e, r2.2)
          | .ok true => (.ok (), r2.2)
          | .ok false => (.error (.versionNotFound searchExpression), r2.2)
        else (.error (.versionNotFound searchExpression), r1.2)

/-! ### bumpversion/utils.py — ConfiguredFile.replace (C8) -/

/-- Fueled scanner behind `pythonReplace`: replace the pattern wherever
it is a prefix of the remaining text, otherwise move one character on;
fuel equal to the text length suffices because every step consumes at
least one character. -/
def replaceGo (pat rep : List Char) : Nat → List Char → List Char
  | _, [] => []
  | 0, l => l
  | fuel + 1, c :: rest =>
    if pat ≠ [] ∧ pat.isPrefixOf (c :: rest) then
      rep ++ replaceGo pat rep fuel ((c :: rest).drop pat.length)
    else c :: replaceGo pat rep fuel rest

/-- Model of Python `str.replace`: replace every non-overlapping
occurrence left to right; the empty pattern interleaves the replacement
around every character. -/
def pythonReplace (s pat rep : String) : String :=
  if pat = "" then
    String.mk (rep.toList ++ s.toList.foldr (fun c acc => c :: rep.toList ++ acc) [])
  else String.mk (replaceGo pat.toList rep.toList s.toList.length s.toList)

/-- The single-quote character. -/
def squote : Char := Char.ofNat 39

/-- Matching the interpolated search text against a character list, the
dot standing for any character: the source interpolates the expanded
search string into the pyproject regex, so dots in a version string
match any character; other regex metacharacters do not occur in the
modelled version strings. -/
def matchSearchChars : List Char → List Char → Option (List Char)
  | [], rest => some rest
  | _ :: _, [] => none
  | p :: ps, c :: cs => if p = '.' ∨ p = c then matchSearchChars ps cs else none

/-- One line of the pyproject.toml substitution (utils.py lines 118-124):
at the start of the line match literal `version`, whitespace, `=`,
whitespace, a quote, the search text, the same quote (the backreference),
and rewrite the quoted text to the replacement, keeping everything
else; a line that does not match is unchanged. -/
def pyprojectLineSub (searchFor replaceWith : String) (line : String) : String :=
  let cs := line.toList
  if "version".toList.isPrefixOf cs then
    let r1 := cs.drop 7
    let ws1 := r1.takeWhile (fun c => c.isWhitespace)
    let r2 := r1.dropWhile (fun c => c.isWhitespace)
    match r2 with
    | '=' :: r3 =>
      let ws2 := r3.takeWhile (fun c => c.isWhitespace)
      let r4 := r3.dropWhile (fun c => c.isWhitespace)
      match r4 with
      | q :: r5 =>
        if q = squote ∨ q = '"' then
          match matchSearchChars searchFor.toList r5 with
          | none => line
          | some r6 =>
            match r6 with
            | q2 :: r7 =>
              if q2 = q then
                String.mk ("version".toList ++ ws1 ++ '=' :: ws2 ++
                  q :: replaceWith.toList ++ q :: r7)
              else line
            | [] => line
        else line
      | [] => line
    | _ => line
  else line

/-- Splitting on newlines keeping every field (the re.M line structure). -/
def splitNl : List Char → List Char → List String
  | [], acc => [String.mk acc]
  | c :: rest, acc =>
    if c = '\n' then String.mk acc :: splitNl rest []
    else splitNl rest (acc ++ [c])

/-- Rejoining lines with newlines. -/
def joinNl : List String → String
  | [] => ""
  | [x] => x
  | x :: y :: rest => x ++ "\n" ++ joinNl (y :: rest)

/-- The multiline anchored substitution for pyproject.toml: apply the
line rule at the start of every line. -/
def pyprojectSub (searchFor replaceWith content : String) : String :=
  joinNl ((splitNl content.toList []).map (pyprojectLineSub searchFor replaceWith))

/-- The content transformation of `ConfiguredFile.replace` (utils.py
lines 102-130): serialize the current and new versions into the context,
expand the search and replace templates, apply the pyproject regex
substitution or the plain replacement, and if the content is unchanged
perform one additional plain replacement of the literally parsed
original version string — with no condition on the search template.
An absent original is the Python TypeError of `str.replace(None, ...)`. -/
def replaceTransform (cfg : VersionConfig) (isPyproject : Bool)
    (current newVersion : Version) (ctx : List (String × String))
    (content : String) : Except PvError String :=
  match serialize cfg current ctx with
  | .error e => .error e
  | .ok cur =>
    let ctx1 := dictUpd ctx "current_version" cur
    match serialize cfg newVersion ctx1 with
    | .error e => .error e
    | .ok nv =>
      let ctx2 := dictUpd ctx1 "new_version" nv
      match renderSegs (formatParse cfg.search) (fun k => lookupD ctx2 k) with
      | .error k => .error (.keyError k)
      | .ok searchFor =>
        match renderSegs (formatParse cfg.replace) (fun k => lookupD ctx2 k) with
        | .error k => .error (.keyError k)
        | .ok replaceWith =>
          let after1 := if isPyproject then pyprojectSub searchFor replaceWith content
                        else pythonReplace content searchFor replaceWith
          if content = after1 then
            match current.original with
            | none => .error .typeError
            | some orig => .ok (pythonReplace content orig replaceWith)
          else .ok after1

/-- Config of the C8 witness: a customized (non-default) search. -/
def cfgW8 : VersionConfig :=
  { serializeFormats := ["{major}"], search := "v{current_version}",
    replace := "{new_version}" }

/-- Current version of the C8 witness, with original 1*2. -/
def currW8 : Version :=
  { values := [("major", { rawValue := some "1", config := NumericVersionPartConfiguration })],
    original := some "1*2" }

/-- New version of the C8 witness. -/
def newW8 : Version :=
  { values := [("major", { rawValue := some "2", config := NumericVersionPartConfiguration })],
    original := none }

end Bumpversion

namespace Bumpversion

/-! ### Helper lemmas about lists -/

theorem takeWhile_append_of_all {α : Type} (P : α → Bool) :
    ∀ (l₁ l₂ : List α), (∀ c ∈ l₁, P c = true) →
      (l₁ ++ l₂).takeWhile P = l₁ ++ l₂.takeWhile P := by
  intro l₁ l₂ h
  induction l₁ with
  | nil => simp
  | cons a l ih =>
    have ha : P a = true := h a (by simp)
    simp only [List.cons_append, List.takeWhile_cons, ha]
    simp [ih (fun c hc => h c (by simp [hc]))]

theorem dropWhile_append_of_all {α : Type} (P : α → Bool) :
    ∀ (l₁ l₂ : List α), (∀ c ∈ l₁, P c = true) →
      (l₁ ++ l₂).dropWhile P = l₂.dropWhile P := by
  intro l₁ l₂ h
  induction l₁ with
  | nil => simp
  | cons a l ih =>
    have ha : P a = true := h a (by simp)
    simp only [List.cons_append, List.dropWhile_cons, ha]
    simp [ih (fun c hc => h c (by simp [hc]))]

theorem takeWhile_eq_self_of_all {α : Type} (P : α → Bool) (l : List α)
    (h : ∀ c ∈ l, P c = true) : l.takeWhile P = l := by
  induction l with
  | nil => rfl
  | cons a l ih =>
    have ha : P a = true := h a (by simp)
    simp [List.takeWhile_cons, ha, ih (fun c hc => h c (by simp [hc]))]

theorem takeWhile_eq_nil_of_head {α : Type} (P : α → Bool) (l : List α)
    (h : ∀ c, l.head? = some c → P c = false) : l.takeWhile P = [] := by
  cases l with
  | nil => rfl
  | cons a l => simp [List.takeWhile_cons, h a rfl]

theorem dropWhile_eq_self_of_head {α : Type} (P : α → Bool) (l : List α)
    (h : ∀ c, l.head? = some c → P c = false) : l.dropWhile P = l := by
  cases l with
  | nil => rfl
  | cons a l => simp [List.dropWhile_cons, h a rfl]

/-! ### Claim theorems for the bump functions -/

/-- C7: on an input that decomposes into a digit-free prefix, a maximal
digit run and a suffix that contains no newline (and does not start with a
digit), `NumericFunction.bump` increments the digit run as an integer and
keeps the prefix and the suffix unchanged.  (The newline hypothesis is
needed: see the counterexample theorem.) -/
theorem numeric_bump_decomposition (p r s : List Char)
    (hp : ∀ c ∈ p, c.isDigit = false)
    (hr : r ≠ []) (hrd : ∀ c ∈ r, c.isDigit = true)
    (hs : ∀ c, s.head? = some c → c.isDigit = false)
    (hnl : ∀ c ∈ s, c ≠ '\n') :
    numericBump (String.mk (p ++ r ++ s)) =
      some (String.mk p ++ toString (digitsVal r + 1) ++ String.mk s) := by
  obtain ⟨a, r', rfl⟩ : ∃ a r', r = a :: r' := by
    cases r with
    | nil => exact absurd rfl hr
    | cons a r' => exact ⟨a, r', rfl⟩
  have hhead : (a : Char).isDigit = true := hrd a (by simp)
  have hpre : (p ++ (a :: r' ++ s)).takeWhile (fun c => !c.isDigit) = p := by
    rw [takeWhile_append_of_all _ p (a :: r' ++ s) (fun c hc => by simp [hp c hc])]
    have : (a :: r' ++ s).takeWhile (fun c => !c.isDigit) = [] := by
      apply takeWhile_eq_nil_of_head
      intro c hc
      have hca : c = a := by
        simp only [List.cons_append, List.head?_cons, Option.some.injEq] at hc
        exact hc.symm
      subst hca
      show (!c.isDigit) = false
      rw [hhead]
      rfl
    rw [this, List.append_nil]
  have hdrop : (p ++ (a :: r' ++ s)).dropWhile (fun c => !c.isDigit) = a :: r' ++ s := by
    rw [dropWhile_append_of_all _ p (a :: r' ++ s) (fun c hc => by simp [hp c hc])]
    apply dropWhile_eq_self_of_head
    intro c hc
    have hca : c = a := by
      simp only [List.cons_append, List.head?_cons, Option.some.injEq] at hc
      exact hc.symm
    subst hca
    show (!c.isDigit) = false
    rw [hhead]
    rfl
  have hrun : (a :: r' ++ s).takeWhile (fun c => c.isDigit) = a :: r' := by
    rw [takeWhile_append_of_all _ (a :: r') s (fun c hc => hrd c hc)]
    simp [takeWhile_eq_nil_of_head _ s hs]
  have hrest2 : (a :: r' ++ s).dropWhile (fun c => c.isDigit) = s := by
    rw [dropWhile_append_of_all _ (a :: r') s (fun c hc => hrd c hc)]
    exact dropWhile_eq_self_of_head _ s hs
  have hsuf : s.takeWhile (fun c => decide (c ≠ '\n')) = s := by
    apply takeWhile_eq_self_of_all
    intro c hc
    simp [hnl c hc]
  simp only [numericBump, String.toList, List.append_assoc, List.cons_append,
    List.nil_append] at hpre hdrop hrun hrest2 ⊢
  rw [hpre, hdrop, hrun, hrest2, hsuf]

/-- Witness for C7: bump of the value r3-001 yields r4-001. -/
theorem numeric_bump_decomposition_witness :
    numericBump (String.mk (['r'] ++ ['3'] ++ ['-', '0', '0', '1'])) =
      some (String.mk ['r'] ++ toString (digitsVal ['3'] + 1) ++
        String.mk ['-', '0', '0', '1']) :=
  numeric_bump_decomposition ['r'] ['3'] ['-', '0', '0', '1']
    (by decide) (by decide) (by decide) (by decide) (by decide)

/-- Counterexample for C7 as stated: for the input 1 newline 2, the code
returns 2 (the newline and everything after it is dropped from the
suffix), while the claim demands the unchanged suffix, which would give
2 newline 2. -/
theorem numeric_bump_newline_counterexample :
    numericBump "1\n2" = some "2" ∧ ("2" : String) ≠ "2\n2" := by
  constructor
  · rfl
  · decide

/-- C6: for a duplicate-free value list, bumping a member that is not the
last element returns the immediately following element, and bumping the
last element fails with the terminal-value error. -/
theorem values_bump_spec (vs : List String) (v : String)
    (hnd : vs.Nodup) (hm : v ∈ vs) :
    (vs.getLast? = some v →
      valuesBump vs v = .error "The part has already the maximum value") ∧
    (∀ i, vs[i]? = some v → i + 1 < vs.length →
      valuesBump vs v = .ok (vs.getD (i + 1) "")) := by
  have hidx : ∀ i, vs[i]? = some v → listIndex vs v = some i := by
    clear hm
    induction vs with
    | nil => intro i h; simp at h
    | cons x rest ih =>
      intro i h
      by_cases hx : x = v
      · subst hx
        have : i = 0 := by
          by_contra hne
          obtain ⟨j, rfl⟩ := Nat.exists_eq_succ_of_ne_zero hne
          have : x ∈ rest := by
            have := h
            simp only [List.getElem?_cons_succ] at this
            exact List.getElem?_mem this
          exact (List.nodup_cons.mp hnd).1 this
        subst this
        simp [listIndex]
      · have hi0 : i ≠ 0 := by
          intro h0
          subst h0
          simp at h
          exact hx h
        obtain ⟨j, rfl⟩ := Nat.exists_eq_succ_of_ne_zero hi0
        simp only [List.getElem?_cons_succ] at h
        have := ih (List.nodup_cons.mp hnd).2 j h
        simp [listIndex, hx, this]
  constructor
  · intro hlast
    have hlen : vs.length ≠ 0 := by
      intro h0
      rw [List.length_eq_zero] at h0
      subst h0
      simp at hlast
    have hget : vs[vs.length - 1]? = some v := by
      rwa [← List.getLast?_eq_getElem?]
    have hidx2 := hidx _ hget
    have hnone : vs[vs.length - 1 + 1]? = none := by
      have h1 : vs.length - 1 + 1 = vs.length :=
        Nat.succ_pred_eq_of_pos (Nat.pos_of_ne_zero hlen)
      rw [h1]
      exact List.getElem?_eq_none (Nat.le_refl _)
    unfold valuesBump
    rw [hidx2]
    simp [hnone]
  · intro i hi hlt
    have hidx2 := hidx i hi
    have hv : vs[i + 1]? = some vs[i + 1] := List.getElem?_eq_getElem hlt
    unfold valuesBump
    rw [hidx2]
    simp [hv, List.getD_eq_getElem vs "" hlt]

/-- Witness for C6 at the list [a, b]: bumping a yields b, bumping the
last element b fails with the terminal-value error. -/
theorem values_bump_spec_witness :
    (["a", "b"].getLast? = some "b" →
      valuesBump ["a", "b"] "b" = .error "The part has already the maximum value") ∧
    (∀ i, ["a", "b"][i]? = some "b" → i + 1 < ["a", "b"].length →
      valuesBump ["a", "b"] "b" = .ok (["a", "b"].getD (i + 1) "")) :=
  values_bump_spec ["a", "b"] "b" (by decide) (by decide)

/-! ### Association list lemmas -/

theorem keysOf_append {α : Type} (m₁ m₂ : List (String × α)) :
    keysOf (m₁ ++ m₂) = keysOf m₁ ++ keysOf m₂ := by
  simp [keysOf]

theorem lookupD_append_of_some {α : Type} {m₁ : List (String × α)}
    (m₂ : List (String × α)) {q : String} {x : α}
    (h : lookupD m₁ q = some x) : lookupD (m₁ ++ m₂) q = some x := by
  induction m₁ with
  | nil => simp [lookupD] at h
  | cons e m ih =>
    obtain ⟨k, y⟩ := e
    by_cases hk : k = q
    · subst hk
      simp [lookupD] at h ⊢
      exact h
    · simp [lookupD, hk] at h ⊢
      exact ih h

theorem lookupD_append_of_none {α : Type} {m₁ : List (String × α)}
    (m₂ : List (String × α)) {q : String}
    (h : lookupD m₁ q = none) : lookupD (m₁ ++ m₂) q = lookupD m₂ q := by
  induction m₁ with
  | nil => simp
  | cons e m ih =>
    obtain ⟨k, y⟩ := e
    by_cases hk : k = q
    · subst hk
      simp [lookupD] at h
    · simp [lookupD, hk] at h ⊢
      exact ih h

theorem lookupD_eq_none_of_not_mem_keys {α : Type} {m : List (String × α)}
    {q : String} (h : q ∉ keysOf m) : lookupD m q = none := by
  induction m with
  | nil => rfl
  | cons e m ih =>
    obtain ⟨k, y⟩ := e
    simp [keysOf] at h
    simp [lookupD, h.1, ih (by simp [keysOf, h.2])]
    intro hk
    exact absurd hk.symm h.1

theorem dictUpd_of_not_mem_keys {α : Type} {m : List (String × α)}
    {k : String} (x : α) (h : k ∉ keysOf m) : dictUpd m k x = m ++ [(k, x)] := by
  simp [dictUpd, h]

theorem keysOf_map_upd {α : Type} (k : String) (x : α) :
    ∀ (m : List (String × α)),
      keysOf (m.map (fun e => if e.1 = k then (k, x) else e)) = keysOf m := by
  intro m
  unfold keysOf
  rw [List.map_map]
  apply List.map_congr_left
  intro e _
  by_cases h1 : e.1 = k
  · simp [Function.comp, h1]
  · simp [Function.comp, h1]

theorem keysOf_dictUpd_mem {α : Type} (m : List (String × α)) (k : String)
    (x : α) (q : String) :
    q ∈ keysOf (dictUpd m k x) ↔ q ∈ keysOf m ∨ q = k := by
  unfold dictUpd
  by_cases hk : k ∈ keysOf m
  · rw [if_pos hk, keysOf_map_upd]
    constructor
    · intro h; exact Or.inl h
    · intro h
      rcases h with h | h
      · exact h
      · subst h; exact hk
  · rw [if_neg hk, keysOf_append]
    simp [keysOf]

/-! ### The bump loop: copies, bumps and resets -/

theorem keysOf_mapLabels_subset (vals : List (String × VersionPart))
    (f : VersionPart → VersionPart) (labels : List String) (q : String)
    (h : q ∈ keysOf (mapLabels vals f labels)) : q ∈ labels := by
  induction labels with
  | nil => simp [mapLabels, keysOf] at h
  | cons a rest ih =>
    simp only [mapLabels, List.filterMap_cons] at h
    cases hl : lookupD vals a with
    | none =>
      rw [hl] at h
      exact List.mem_cons_of_mem _ (ih h)
    | some pa =>
      rw [hl] at h
      simp [keysOf] at h
      rcases h with h | h
      · simp [h]
      · exact List.mem_cons_of_mem _ (ih (by simpa [mapLabels, keysOf] using h))

theorem lookupD_mapLabels (vals : List (String × VersionPart))
    (f : VersionPart → VersionPart) (labels : List String) (q : String)
    (pq : VersionPart) (hq : q ∈ labels) (hl : lookupD vals q = some pq) :
    lookupD (mapLabels vals f labels) q = some (f pq) := by
  induction labels with
  | nil => simp at hq
  | cons a rest ih =>
    by_cases ha : a = q
    · subst ha
      have step : mapLabels vals f (a :: rest) = (a, f pq) :: mapLabels vals f rest := by
        simp [mapLabels, hl]
      rw [step]
      simp [lookupD]
    · have hmem : q ∈ rest := by
        rcases List.mem_cons.mp hq with h | h
        · exact absurd h.symm ha
        · exact h
      cases hla : lookupD vals a with
      | none =>
        have step : mapLabels vals f (a :: rest) = mapLabels vals f rest := by
          simp [mapLabels, hla]
        rw [step]
        exact ih hmem
      | some pa =>
        have step : mapLabels vals f (a :: rest) = (a, f pa) :: mapLabels vals f rest := by
          simp [mapLabels, hla]
        rw [step]
        simp only [lookupD, if_neg ha]
        exact ih hmem

theorem not_mem_keys_append_of {α : Type} {acc : List (String × α)}
    {k : String} {x : α} {l : String} (h1 : l ∉ keysOf acc) (h2 : l ≠ k) :
    l ∉ keysOf (acc ++ [(k, x)]) := by
  rw [keysOf_append]
  intro hmem
  rcases List.mem_append.mp hmem with h | h
  · exact h1 h
  · have : l = k := by simpa [keysOf] using h
    exact h2 this

/-- Copying a part as the loop does before the bump happened. -/
theorem bumpGo_pre (vals : List (String × VersionPart)) (partName : String) :
    ∀ (labels rest : List String) (acc : List (String × VersionPart)),
      partName ∉ labels → labels.Nodup → (∀ l ∈ labels, l ∉ keysOf acc) →
      bumpGo vals partName (labels ++ rest) false acc =
        bumpGo vals partName rest false (acc ++ mapLabels vals VersionPart.copy labels) := by
  intro labels
  induction labels with
  | nil =>
    intro rest acc _ _ _
    have hm : mapLabels vals VersionPart.copy [] = [] := rfl
    rw [List.nil_append, hm, List.append_nil]
  | cons a labels ih =>
    intro rest acc hpn hnd hkeys
    have hane : a ≠ partName := fun h => hpn (by simp [h])
    have hpn2 : partName ∉ labels := fun h => hpn (List.mem_cons_of_mem _ h)
    cases hla : lookupD vals a with
    | none =>
      have step : bumpGo vals partName ((a :: labels) ++ rest) false acc =
          bumpGo vals partName (labels ++ rest) false acc := by
        simp [bumpGo, hla]
      rw [step, ih rest acc hpn2 (List.nodup_cons.mp hnd).2
        (fun l hl => hkeys l (List.mem_cons_of_mem _ hl))]
      simp [mapLabels, hla]
    | some pa =>
      have step : bumpGo vals partName ((a :: labels) ++ rest) false acc =
          bumpGo vals partName (labels ++ rest) false (dictUpd acc a pa.copy) := by
        simp [bumpGo, hla, hane]
      rw [step, dictUpd_of_not_mem_keys _ (hkeys a (by simp))]
      rw [ih rest (acc ++ [(a, pa.copy)]) hpn2 (List.nodup_cons.mp hnd).2
        (fun l hl => not_mem_keys_append_of (hkeys l (List.mem_cons_of_mem _ hl))
          (fun he => (List.nodup_cons.mp hnd).1 (he ▸ hl)))]
      simp [mapLabels, hla]

/-- After the bump happened, the loop resets non-independent parts and
copies independent ones, and always succeeds. -/
theorem bumpGo_post (vals : List (String × VersionPart)) (partName : String) :
    ∀ (labels : List String) (acc : List (String × VersionPart)),
      partName ∉ labels → labels.Nodup → (∀ l ∈ labels, l ∉ keysOf acc) →
      bumpGo vals partName labels true acc =
        .ok (acc ++ mapLabels vals
          (fun part => if part.config.independent then part.copy else part.null) labels) := by
  intro labels
  induction labels with
  | nil => intro acc _ _ _; simp [bumpGo, mapLabels]
  | cons a labels ih =>
    intro acc hpn hnd hkeys
    have hane : a ≠ partName := fun h => hpn (by simp [h])
    have hpn2 : partName ∉ labels := fun h => hpn (List.mem_cons_of_mem _ h)
    cases hla : lookupD vals a with
    | none =>
      have step : bumpGo vals partName (a :: labels) true acc =
          bumpGo vals partName labels true acc := by
        simp [bumpGo, hla]
      rw [step, ih acc hpn2 (List.nodup_cons.mp hnd).2
        (fun l hl => hkeys l (List.mem_cons_of_mem _ hl))]
      simp [mapLabels, hla]
    | some pa =>
      have step : bumpGo vals partName (a :: labels) true acc =
          bumpGo vals partName labels true
            (dictUpd acc a (if pa.config.independent then pa.copy else pa.null)) := by
        by_cases hind : pa.config.independent
        · simp [bumpGo, hla, hane, hind]
        · simp only [Bool.not_eq_true] at hind
          simp [bumpGo, hla, hane, hind]
      rw [step, dictUpd_of_not_mem_keys _ (hkeys a (by simp))]
      rw [ih (acc ++ [(a, if pa.config.independent then pa.copy else pa.null)]) hpn2
        (List.nodup_cons.mp hnd).2
        (fun l hl => not_mem_keys_append_of (hkeys l (List.mem_cons_of_mem _ hl))
          (fun he => (List.nodup_cons.mp hnd).1 (he ▸ hl)))]
      simp [mapLabels, hla]

/-- A loop that never sees the requested part with the flag still unset
cannot succeed. -/
theorem bumpGo_nobump (vals : List (String × VersionPart)) (partName : String) :
    ∀ (labels : List String) (acc : List (String × VersionPart)),
      partName ∉ labels →
      ∀ res, bumpGo vals partName labels false acc ≠ .ok res := by
  intro labels
  induction labels with
  | nil => intro acc _ res h; simp [bumpGo] at h
  | cons a labels ih =>
    intro acc hpn res h
    have hane : a ≠ partName := fun he => hpn (by simp [he])
    have hpn2 : partName ∉ labels := fun hm => hpn (List.mem_cons_of_mem _ hm)
    cases hla : lookupD vals a with
    | none =>
      have step : bumpGo vals partName (a :: labels) false acc =
          bumpGo vals partName labels false acc := by
        simp [bumpGo, hla]
      rw [step] at h
      exact ih acc hpn2 res h
    | some pa =>
      have step : bumpGo vals partName (a :: labels) false acc =
          bumpGo vals partName labels false (dictUpd acc a pa.copy) := by
        simp [bumpGo, hla, hane]
      rw [step] at h
      exact ih _ hpn2 res h

/-- C2 (amended): bumping part `p` under a duplicate-free ordering keeps,
for every part before `p` and every independent part, the stored raw
value, but rebuilds those parts with the default numeric configuration
(because `VersionPart.copy` drops the configuration); as a consequence
their reported value agrees with the old one exactly when the stored
value is present and non-empty.  The bumped part carries the result of
its bump function, and every non-independent part after `p` is reset to
its schema's first value. -/
theorem version_bump_reset (v : Version) (partName : String)
    (pre post : List String) (w : Version)
    (hnd : (pre ++ partName :: post).Nodup)
    (h : Version.bump v partName (pre ++ partName :: post) = .ok w) :
    (∀ q ∈ pre, ∀ pq, lookupD v.values q = some pq →
      lookupD w.values q = some pq.copy) ∧
    (∃ pp np, lookupD v.values partName = some pp ∧ pp.bump = .ok np ∧
      lookupD w.values partName = some np) ∧
    (∀ q ∈ post, ∀ pq, lookupD v.values q = some pq →
      lookupD w.values q =
        some (if pq.config.independent then pq.copy else pq.null)) ∧
    (∀ q ∈ pre, ∀ pq s, lookupD v.values q = some pq → pq.rawValue = some s →
      s ≠ "" → (lookupD w.values q).map VersionPart.value = some pq.value) := by
  have hsplit := List.nodup_append.mp hnd
  have hpre_nd : pre.Nodup := hsplit.1
  have hcons := List.nodup_cons.mp hsplit.2.1
  have hpn_post : partName ∉ post := hcons.1
  have hpost_nd : post.Nodup := hcons.2
  have hdisj : ∀ q ∈ pre, q ∉ partName :: post := fun q hq => hsplit.2.2 hq
  have hpn_pre : partName ∉ pre := fun hmem => hdisj partName hmem (by simp)
  -- extract the successful loop run
  unfold Version.bump at h
  cases hgo : bumpGo v.values partName (pre ++ partName :: post) false [] with
  | error e => rw [hgo] at h; simp [Except.map] at h
  | ok nv =>
    rw [hgo] at h
    simp only [Except.map, Except.ok.injEq] at h
    have hw : w.values = nv := by rw [← h]
    rw [bumpGo_pre v.values partName pre (partName :: post) [] hpn_pre hpre_nd
      (by simp [keysOf])] at hgo
    rw [List.nil_append] at hgo
    set copies := mapLabels v.values VersionPart.copy pre with hcopies
    have hkeys_copies : ∀ l, l ∈ keysOf copies → l ∈ pre := by
      intro l hl
      exact keysOf_mapLabels_subset _ _ _ _ hl
    cases hlp : lookupD v.values partName with
    | none =>
      have step : bumpGo v.values partName (partName :: post) false copies =
          bumpGo v.values partName post false copies := by
        simp [bumpGo, hlp]
      rw [step] at hgo
      exact absurd hgo (bumpGo_nobump v.values partName post copies hpn_post nv)
    | some pp =>
      cases hbp : pp.bump with
      | error e =>
        have step : bumpGo v.values partName (partName :: post) false copies =
            .error e := by
          simp [bumpGo, hlp, hbp]
        rw [step] at hgo
        simp at hgo
      | ok np =>
        have step : bumpGo v.values partName (partName :: post) false copies =
            bumpGo v.values partName post true (dictUpd copies partName np) := by
          simp [bumpGo, hlp, hbp]
        rw [step] at hgo
        have hpn_keys : partName ∉ keysOf copies :=
          fun hmem => hpn_pre (hkeys_copies _ hmem)
        rw [dictUpd_of_not_mem_keys _ hpn_keys] at hgo
        rw [bumpGo_post v.values partName post (copies ++ [(partName, np)])
          hpn_post hpost_nd ?hdisj2] at hgo
        case hdisj2 =>
          intro l hl
          apply not_mem_keys_append_of
          · intro hmem
            exact hdisj l (hkeys_copies l hmem) (List.mem_cons_of_mem _ hl)
          · intro he
            exact hpn_post (he ▸ hl)
        simp only [Except.ok.injEq] at hgo
        set resets := mapLabels v.values
          (fun part => if part.config.independent then part.copy else part.null)
          post with hresets
        have hnv : nv = copies ++ [(partName, np)] ++ resets := hgo.symm
        have hwv : w.values = copies ++ ([(partName, np)] ++ resets) := by
          rw [hw, hnv, List.append_assoc]
        have hlook_pre : ∀ q ∈ pre, ∀ pq, lookupD v.values q = some pq →
            lookupD w.values q = some pq.copy := by
          intro q hq pq hpq
          rw [hwv]
          exact lookupD_append_of_some _
            (lookupD_mapLabels v.values VersionPart.copy pre q pq hq hpq)
        refine ⟨hlook_pre, ?_, ?_, ?_⟩
        · refine ⟨pp, np, ?_, hbp, ?_⟩
          · simp [hlp]
          · rw [hwv]
            have hnone : lookupD copies partName = none :=
              lookupD_eq_none_of_not_mem_keys hpn_keys
            rw [lookupD_append_of_none _ hnone]
            have hcons : ([(partName, np)] ++ resets) = (partName, np) :: resets := rfl
            rw [hcons]
            have hred : lookupD ((partName, np) :: resets) partName =
                if partName = partName then some np else lookupD resets partName := rfl
            rw [hred, if_pos rfl]
        · intro q hq pq hpq
          rw [hwv]
          have hq_pre : q ∉ keysOf copies := by
            intro hmem
            exact hdisj q (hkeys_copies q hmem) (List.mem_cons_of_mem _ hq)
          rw [lookupD_append_of_none _ (lookupD_eq_none_of_not_mem_keys hq_pre)]
          have hq_ne : partName ≠ q := fun he => hpn_post (he ▸ hq)
          have hcons : ([(partName, np)] ++ resets) = (partName, np) :: resets := rfl
          rw [hcons]
          have hred : lookupD ((partName, np) :: resets) q =
              if partName = q then some np else lookupD resets q := rfl
          rw [hred, if_neg hq_ne]
          exact lookupD_mapLabels v.values _ post q pq hq hpq
        · intro q hq pq s hpq hraw hne
          rw [hlook_pre q hq pq hpq]
          have h3 : (some pq.copy).map VersionPart.value = some pq.copy.value := rfl
          have h1 : pq.copy.value = s := by
            simp [VersionPart.copy, VersionPart.value, hraw, hne]
          have h2 : pq.value = s := by
            simp [VersionPart.value, hraw, hne]
          rw [h3, h1, h2]

/-- Counterexample for C2 as stated: `release` sits before the bumped
part `major` in the ordering, yet its reported value changes from gamma
(its configured optional value) to 0 (the default optional value), because
the copy drops the part configuration. -/
theorem version_bump_copy_counterexample :
    Version.bump vC2 "major" ["release", "major"] = .ok wC2 ∧
    (lookupD wC2.values "release").map VersionPart.value = some "0" ∧
    (lookupD vC2.values "release").map VersionPart.value = some "gamma" ∧
    ("0" : String) ≠ "gamma" := by
  refine ⟨by decide, by decide, by decide, by decide⟩

/-- Witness for the amended C2 on a concrete bump: part a before p is
copied, p is bumped, b after p is reset, the independent c is copied. -/
theorem version_bump_reset_witness :
    lookupD wW2.values "a" = some (VersionPart.copy
      { rawValue := some "1", config := NumericVersionPartConfiguration }) ∧
    (∃ pp np, lookupD vW2.values "p" = some pp ∧ pp.bump = .ok np ∧
      lookupD wW2.values "p" = some np) ∧
    lookupD wW2.values "c" = some (VersionPart.copy
      { rawValue := some "9", config := cfgIndep }) ∧
    (lookupD wW2.values "a").map VersionPart.value =
      some (VersionPart.value { rawValue := some "1", config := NumericVersionPartConfiguration }) := by
  have H := version_bump_reset vW2 "p" ["a"] ["b", "c"] wW2 (by decide) (by decide)
  refine ⟨H.1 "a" (by simp) _ rfl, H.2.1, ?_, H.2.2.2 "a" (by simp) _ "1" rfl rfl (by decide)⟩
  have := H.2.2.1 "c" (by simp) { rawValue := some "9", config := cfgIndep } rfl
  simpa [cfgIndep] using this

/-- The set of keys the bump loop produces: the keys already accumulated
plus every remaining ordering label that names a part of the version. -/
theorem bumpGo_keys (vals : List (String × VersionPart)) (partName : String) :
    ∀ (labels : List String) (bumped : Bool) (acc res : List (String × VersionPart)),
      bumpGo vals partName labels bumped acc = .ok res →
      ∀ q, q ∈ keysOf res ↔
        q ∈ keysOf acc ∨ (q ∈ labels ∧ (lookupD vals q).isSome = true) := by
  intro labels
  induction labels with
  | nil =>
    intro bumped acc res h q
    cases bumped with
    | false => simp [bumpGo] at h
    | true =>
      have h2 : acc = res := by simpa [bumpGo] using h
      subst h2
      simp
  | cons a labels ih =>
    intro bumped acc res h q
    cases hla : lookupD vals a with
    | none =>
      have step : bumpGo vals partName (a :: labels) bumped acc =
          bumpGo vals partName labels bumped acc := by
        simp [bumpGo, hla]
      rw [step] at h
      rw [ih bumped acc res h q]
      constructor
      · intro hh
        rcases hh with hh | hh
        · exact Or.inl hh
        · exact Or.inr ⟨List.mem_cons_of_mem _ hh.1, hh.2⟩
      · intro hh
        rcases hh with hh | hh
        · exact Or.inl hh
        · rcases List.mem_cons.mp hh.1 with he | he
          · subst he
            rw [hla] at hh
            simp at hh
          · exact Or.inr ⟨he, hh.2⟩
    | some pa =>
      have hq_some : q = a → (lookupD vals q).isSome = true := by
        intro he
        subst he
        rw [hla]
        rfl
      have main : ∀ (x : VersionPart) (b2 : Bool),
          bumpGo vals partName labels b2 (dictUpd acc a x) = .ok res →
          (q ∈ keysOf res ↔
            q ∈ keysOf acc ∨ (q ∈ a :: labels ∧ (lookupD vals q).isSome = true)) := by
        intro x b2 hx
        rw [ih b2 _ res hx q, keysOf_dictUpd_mem]
        constructor
        · intro hh
          rcases hh with (hh | hh) | hh
          · exact Or.inl hh
          · exact Or.inr ⟨by simp [hh], hq_some hh⟩
          · exact Or.inr ⟨List.mem_cons_of_mem _ hh.1, hh.2⟩
        · intro hh
          rcases hh with hh | hh
          · exact Or.inl (Or.inl hh)
          · rcases List.mem_cons.mp hh.1 with he | he
            · exact Or.inl (Or.inr he)
            · exact Or.inr ⟨he, hh.2⟩
      by_cases hap : a = partName
      · have hla2 : lookupD vals partName = some pa := hap ▸ hla
        cases hbp : pa.bump with
        | error e =>
          have step : bumpGo vals partName (a :: labels) bumped acc = .error e := by
            simp [bumpGo, hap, hla2, hbp]
          rw [step] at h
          simp at h
        | ok np =>
          have step : bumpGo vals partName (a :: labels) bumped acc =
              bumpGo vals partName labels true (dictUpd acc a np) := by
            simp [bumpGo, hap, hla2, hbp]
          rw [step] at h
          exact main np true h
      · by_cases hcond : (bumped && !pa.config.independent) = true
        · have step : bumpGo vals partName (a :: labels) bumped acc =
              bumpGo vals partName labels bumped (dictUpd acc a pa.null) := by
            simp only [bumpGo, hla, if_neg hap]
            rw [if_pos hcond]
          rw [step] at h
          exact main pa.null bumped h
        · have step : bumpGo vals partName (a :: labels) bumped acc =
              bumpGo vals partName labels bumped (dictUpd acc a pa.copy) := by
            simp only [bumpGo, hla, if_neg hap]
            rw [if_neg hcond]
          rw [step] at h
          exact main pa.copy bumped h

/-- C10: the bumped version contains exactly the part names that occur
both in the ordering and in the original version; parts of the version
missing from the ordering are silently dropped. -/
theorem version_bump_keys (v : Version) (partName : String)
    (order : List String) (w : Version)
    (h : Version.bump v partName order = .ok w) (q : String) :
    q ∈ keysOf w.values ↔ q ∈ order ∧ (lookupD v.values q).isSome = true := by
  unfold Version.bump at h
  cases hgo : bumpGo v.values partName order false [] with
  | error e => rw [hgo] at h; simp [Except.map] at h
  | ok nv =>
    rw [hgo] at h
    simp only [Except.map, Except.ok.injEq] at h
    have hw : w.values = nv := by rw [← h]
    rw [hw]
    have := bumpGo_keys v.values partName order false [] nv hgo q
    simpa [keysOf] using this

/-- Witness for C10: the part extra, absent from the ordering, is absent
from the bumped version. -/
theorem version_bump_keys_witness :
    "extra" ∈ keysOf wC10.values ↔
      "extra" ∈ ["major"] ∧ (lookupD vC10.values "extra").isSome = true :=
  version_bump_keys vC10 "major" ["major"] wC10 (by decide) "extra"

/-! ### The serialization chooser (C1) -/

theorem keysNeedingGo_subset (vals : String → Option (VersionPart ⊕ String))
    (allKeys : List String) :
    ∀ (rest : List String) (i : Nat) (acc out : List String),
      (∀ x ∈ acc, x ∈ allKeys) →
      keysNeedingGo vals allKeys rest i acc = .ok out →
      ∀ x ∈ out, x ∈ allKeys := by
  intro rest
  induction rest with
  | nil =>
    intro i acc out hacc h
    simp only [keysNeedingGo, Except.ok.injEq] at h
    subst h
    exact hacc
  | cons k rest ih =>
    intro i acc out hacc h
    cases hv : vals k with
    | none =>
      have step : keysNeedingGo vals allKeys (k :: rest) i acc = .error k := by
        simp [keysNeedingGo, hv]
      rw [step] at h
      simp at h
    | some pv =>
      cases pv with
      | inr str =>
        have step : keysNeedingGo vals allKeys (k :: rest) i acc =
            keysNeedingGo vals allKeys rest (i + 1) acc := by
          simp [keysNeedingGo, hv]
        rw [step] at h
        exact ih (i + 1) acc out hacc h
      | inl part =>
        by_cases hopt : part.isOptional
        · have step : keysNeedingGo vals allKeys (k :: rest) i acc =
              keysNeedingGo vals allKeys rest (i + 1) acc := by
            simp [keysNeedingGo, hv, hopt]
          rw [step] at h
          exact ih (i + 1) acc out hacc h
        · have step : keysNeedingGo vals allKeys (k :: rest) i acc =
              keysNeedingGo vals allKeys rest (i + 1) (allKeys.take (i + 1)) := by
            simp [keysNeedingGo, hv, hopt]
          rw [step] at h
          exact ih (i + 1) _ out (fun x hx => List.take_subset _ _ hx) h

/-- The first configured format can never be incomplete: the order keys
are exactly its own labels, so every needed key is represented. -/
theorem serializeOne_first_not_incomplete (cfg : VersionConfig) (v : Version)
    (ctx : List (String × String)) (f0 : String) (rest : List String)
    (hf : cfg.serializeFormats = f0 :: rest) :
    serializeOne cfg v ctx f0 true ≠ .error .incomplete := by
  have horder : cfg.order = labelsForFormat f0 := by
    unfold VersionConfig.order
    rw [hf]
    rfl
  intro hbad
  unfold serializeOne at hbad
  dsimp only at hbad
  cases hr : renderSegs (formatParse f0)
      (fun k => ((mkValues ctx v) k).map partOrStr) with
  | error k =>
    rw [hr] at hbad
    simp at hbad
  | ok serialized =>
    rw [hr] at hbad
    cases hs : keysNeedingGo (mkValues ctx v) cfg.order cfg.order 0 [] with
    | error k =>
      rw [hs] at hbad
      simp at hbad
    | ok keysNeeding =>
      rw [hs] at hbad
      have hsub : ∀ x ∈ keysNeeding, x ∈ labelsForFormat f0 := by
        intro x hx
        rw [← horder]
        exact keysNeedingGo_subset (mkValues ctx v) cfg.order cfg.order 0 []
          keysNeeding (by simp) hs x hx
      have hall : keysNeeding.all (fun k => decide (k ∈ labelsForFormat f0)) = true := by
        rw [List.all_eq_true]
        intro x hx
        exact decide_eq_true (hsub x hx)
      simp [hall] at hbad

/-- The invariant of the chooser loop: starting from a non-empty complete
choice, the loop returns a complete format of minimal segment count among
the current choice and every complete remaining format. -/
theorem chooseGo_inv (cfg : VersionConfig) (v : Version)
    (ctx : List (String × String)) :
    ∀ (fmts : List String) (ch c : String),
      (∀ f ∈ fmts, f ≠ "") → ch ≠ "" → isCompleteFmt cfg v ctx ch = true →
      chooseGo cfg v ctx fmts (some ch) = .ok c →
      isCompleteFmt cfg v ctx c = true ∧ (c = ch ∨ c ∈ fmts) ∧
        (formatParse c).length ≤ (formatParse ch).length ∧
        (∀ f ∈ fmts, isCompleteFmt cfg v ctx f = true →
          (formatParse c).length ≤ (formatParse f).length) := by
  intro fmts
  induction fmts with
  | nil =>
    intro ch c hne hch hcomp h
    have : c = ch := by
      simp only [chooseGo, if_neg hch, Except.ok.injEq] at h
      exact h.symm
    subst this
    exact ⟨hcomp, Or.inl rfl, Nat.le_refl _, by simp⟩
  | cons f fmts ih =>
    intro ch c hne hch hcomp h
    have hfne : f ≠ "" := hne f (by simp)
    have hne2 : ∀ g ∈ fmts, g ≠ "" := fun g hg => hne g (List.mem_cons_of_mem _ hg)
    cases hser : serializeOne cfg v ctx f true with
    | ok s =>
      have hfcomp : isCompleteFmt cfg v ctx f = true := by
        unfold isCompleteFmt
        rw [hser]
      by_cases hlt : (formatParse f).length < (formatParse ch).length
      · have step : chooseGo cfg v ctx (f :: fmts) (some ch) =
            chooseGo cfg v ctx fmts (some f) := by
          simp [chooseGo, hser, hch, hlt]
        rw [step] at h
        obtain ⟨h1, h2, h3, h4⟩ := ih f c hne2 hfne hfcomp h
        refine ⟨h1, ?_, ?_, ?_⟩
        · rcases h2 with h2 | h2
          · exact Or.inr (by simp [h2])
          · exact Or.inr (List.mem_cons_of_mem _ h2)
        · exact Nat.le_trans h3 (Nat.le_of_lt hlt)
        · intro g hg hgc
          rcases List.mem_cons.mp hg with hg | hg
          · subst hg
            exact h3
          · exact h4 g hg hgc
      · have step : chooseGo cfg v ctx (f :: fmts) (some ch) =
            chooseGo cfg v ctx fmts (some ch) := by
          simp [chooseGo, hser, hch, hlt]
        rw [step] at h
        obtain ⟨h1, h2, h3, h4⟩ := ih ch c hne2 hch hcomp h
        refine ⟨h1, ?_, h3, ?_⟩
        · rcases h2 with h2 | h2
          · exact Or.inl h2
          · exact Or.inr (List.mem_cons_of_mem _ h2)
        · intro g hg hgc
          rcases List.mem_cons.mp hg with hg | hg
          · subst hg
            exact Nat.le_trans h3 (Nat.le_of_not_lt hlt)
          · exact h4 g hg hgc
    | error e =>
      cases e with
      | incomplete =>
        have hfcomp : isCompleteFmt cfg v ctx f = false := by
          unfold isCompleteFmt
          rw [hser]
        have step : chooseGo cfg v ctx (f :: fmts) (some ch) =
            chooseGo cfg v ctx fmts (some ch) := by
          simp [chooseGo, hser, hch]
        rw [step] at h
        obtain ⟨h1, h2, h3, h4⟩ := ih ch c hne2 hch hcomp h
        refine ⟨h1, ?_, h3, ?_⟩
        · rcases h2 with h2 | h2
          · exact Or.inl h2
          · exact Or.inr (List.mem_cons_of_mem _ h2)
        · intro g hg hgc
          rcases List.mem_cons.mp hg with hg | hg
          · subst hg
            rw [hfcomp] at hgc
            simp at hgc
          · exact h4 g hg hgc
      | missingValue k =>
        have step : chooseGo cfg v ctx (f :: fmts) (some ch) =
            .error (.missingValue k) := by
          simp [chooseGo, hser]
        rw [step] at h
        simp at h
      | keyError msg =>
        have step : chooseGo cfg v ctx (f :: fmts) (some ch) =
            .error (.keyError msg) := by
          simp [chooseGo, hser]
        rw [step] at h
        simp at h
      | versionNotFound expr =>
        have step : chooseGo cfg v ctx (f :: fmts) (some ch) =
            .error (.versionNotFound expr) := by
          simp [chooseGo, hser]
        rw [step] at h
        simp at h
      | ioError path =>
        have step : chooseGo cfg v ctx (f :: fmts) (some ch) =
            .error (.ioError path) := by
          simp [chooseGo, hser]
        rw [step] at h
        simp at h
      | typeError =>
        have step : chooseGo cfg v ctx (f :: fmts) (some ch) =
            .error .typeError := by
          simp [chooseGo, hser]
        rw [step] at h
        simp at h

/-- C1 (amended): when every configured template is a non-empty string and
the chooser returns a format, the first template is complete (so the
no-complete-template case of the claim is unreachable), and the chosen
format is a complete one of minimal Formatter-segment count among all
complete templates.  (Non-emptiness is needed: a chosen empty template is
falsy in Python and is overwritten by the next usable template regardless
of length — see the counterexample.) -/
theorem choose_serialize_format_shortest (cfg : VersionConfig) (v : Version)
    (ctx : List (String × String)) (f0 : String) (rest : List String) (c : String)
    (hf : cfg.serializeFormats = f0 :: rest)
    (hne : ∀ f ∈ cfg.serializeFormats, f ≠ "")
    (h : chooseSerializeFormat cfg v ctx = .ok c) :
    isCompleteFmt cfg v ctx f0 = true ∧ isCompleteFmt cfg v ctx c = true ∧
      c ∈ cfg.serializeFormats ∧
      (∀ f ∈ cfg.serializeFormats, isCompleteFmt cfg v ctx f = true →
        (formatParse c).length ≤ (formatParse f).length) := by
  unfold chooseSerializeFormat at h
  rw [hf] at h hne
  have hf0ne : f0 ≠ "" := hne f0 (by simp)
  have hne2 : ∀ g ∈ rest, g ≠ "" := fun g hg => hne g (List.mem_cons_of_mem _ hg)
  cases hser : serializeOne cfg v ctx f0 true with
  | ok s =>
    have hf0comp : isCompleteFmt cfg v ctx f0 = true := by
      unfold isCompleteFmt
      rw [hser]
    have step : chooseGo cfg v ctx (f0 :: rest) none =
        chooseGo cfg v ctx rest (some f0) := by
      simp [chooseGo, hser]
    rw [step] at h
    obtain ⟨h1, h2, h3, h4⟩ := chooseGo_inv cfg v ctx rest f0 c hne2 hf0ne hf0comp h
    refine ⟨hf0comp, h1, ?_, ?_⟩
    · rcases h2 with h2 | h2
      · rw [hf, h2]
        simp
      · rw [hf]
        exact List.mem_cons_of_mem _ h2
    · intro g hg hgc
      rw [hf] at hg
      rcases List.mem_cons.mp hg with hg | hg
      · subst hg
        exact h3
      · exact h4 g hg hgc
  | error e =>
    cases e with
    | incomplete =>
      exact absurd hser (serializeOne_first_not_incomplete cfg v ctx f0 rest hf)
    | missingValue k =>
      have step : chooseGo cfg v ctx (f0 :: rest) none = .error (.missingValue k) := by
        simp [chooseGo, hser]
      rw [step] at h
      simp at h
    | keyError msg =>
      have step : chooseGo cfg v ctx (f0 :: rest) none = .error (.keyError msg) := by
        simp [chooseGo, hser]
      rw [step] at h
      simp at h
    | versionNotFound expr =>
      have step : chooseGo cfg v ctx (f0 :: rest) none = .error (.versionNotFound expr) := by
        simp [chooseGo, hser]
      rw [step] at h
      simp at h
    | ioError path =>
      have step : chooseGo cfg v ctx (f0 :: rest) none = .error (.ioError path) := by
        simp [chooseGo, hser]
      rw [step] at h
      simp at h
    | typeError =>
      have step : chooseGo cfg v ctx (f0 :: rest) none = .error .typeError := by
        simp [chooseGo, hser]
      rw [step] at h
      simp at h

/-- Counterexample for C1 as stated: with the templates [empty, major]
both templates are complete, the empty one has zero parse segments, yet
the chooser returns the one-segment major template, because a falsy
(empty) chosen format is overwritten regardless of length. -/
theorem choose_serialize_format_counterexample :
    chooseSerializeFormat cfgC1 vC1 [] = .ok "{major}" ∧
    isCompleteFmt cfgC1 vC1 [] "" = true ∧
    (formatParse "").length < (formatParse "{major}").length := by
  refine ⟨by decide, by decide, by decide⟩

/-- Witness for the amended C1: with templates [major.minor, major] and
minor at its optional value, both templates are complete and the chooser
returns the shorter one. -/
theorem choose_serialize_format_shortest_witness :
    isCompleteFmt cfgW1 vW1 [] "{major}.{minor}" = true ∧
    isCompleteFmt cfgW1 vW1 [] "{major}" = true ∧
    "{major}" ∈ cfgW1.serializeFormats ∧
    (∀ f ∈ cfgW1.serializeFormats, isCompleteFmt cfgW1 vW1 [] f = true →
      (formatParse "{major}").length ≤ (formatParse f).length) := by
  have H := choose_serialize_format_shortest cfgW1 vW1 [] "{major}.{minor}" ["{major}"]
    "{major}" (by decide) (by decide) (by decide)
  exact ⟨H.1, H.2.1, H.2.2.1, H.2.2.2⟩

/-! ### Round-trip for the concrete single-part schema (C3) -/

theorem string_empty_append (s : String) : "" ++ s = s := by
  cases s
  rfl

theorem string_append_empty (s : String) : s ++ "" = s := by
  cases s with
  | mk data => exact congrArg String.mk (List.append_nil data)

theorem renderSegs_single (f : String) (vf : String → Option String) (val : String)
    (h : vf f = some val) : renderSegs [("", some f)] vf = .ok val := by
  simp only [renderSegs, h]
  simp [Except.map, string_empty_append, string_append_empty]

theorem keysNeedingGo_single (vals : String → Option (VersionPart ⊕ String))
    (k : String) (part : VersionPart) (h : vals k = some (.inl part)) :
    keysNeedingGo vals [k] [k] 0 [] =
      .ok (if part.isOptional then [] else [k]) := by
  by_cases hopt : part.isOptional = true
  · simp [keysNeedingGo, h, hopt]
  · simp [keysNeedingGo, h, hopt]

theorem serializeOne_mkMajor (s : String) (cfgP : PartConfig) (hne : s ≠ "")
    (b : Bool) :
    serializeOne cfgC3 (mkMajorVersion s cfgP) [] "{major}" b = .ok s := by
  have hpart : lookupD (mkMajorVersion s cfgP).values "major" =
      some { rawValue := some s, config := cfgP } := rfl
  have hval : ({ rawValue := some s, config := cfgP } : VersionPart).value = s := by
    simp [VersionPart.value, hne]
  have hvals : mkValues [] (mkMajorVersion s cfgP) "major" =
      some (.inl { rawValue := some s, config := cfgP }) := rfl
  have hvf : ((mkValues [] (mkMajorVersion s cfgP)) "major").map partOrStr = some s := by
    rw [hvals]
    have : partOrStr (.inl { rawValue := some s, config := cfgP }) =
        ({ rawValue := some s, config := cfgP } : VersionPart).value := rfl
    simp [this, hval]
  unfold serializeOne
  dsimp only
  rw [show formatParse "{major}" = [("", some "major")] from rfl]
  rw [renderSegs_single "major" _ s hvf]
  rw [show cfgC3.order = ["major"] from rfl]
  rw [keysNeedingGo_single (mkValues [] (mkMajorVersion s cfgP)) "major"
    { rawValue := some s, config := cfgP } hvals]
  have hall : (["major"].all fun k => decide (k ∈ labelsForFormat "{major}")) = true := by
    decide
  by_cases hopt : ({ rawValue := some s, config := cfgP } : VersionPart).isOptional = true
  · rw [if_pos hopt]
    simp
  · rw [if_neg hopt]
    simp [hall]

theorem serialize_mkMajor (s : String) (cfgP : PartConfig) (hne : s ≠ "") :
    serialize cfgC3 (mkMajorVersion s cfgP) [] = .ok s := by
  have h1 := serializeOne_mkMajor s cfgP hne true
  have h0 := serializeOne_mkMajor s cfgP hne false
  unfold serialize chooseSerializeFormat
  rw [show cfgC3.serializeFormats = ["{major}"] from rfl]
  have step1 : chooseGo cfgC3 (mkMajorVersion s cfgP) [] ["{major}"] none =
      chooseGo cfgC3 (mkMajorVersion s cfgP) [] [] (some "{major}") := by
    simp [chooseGo, h1]
  have step2 : chooseGo cfgC3 (mkMajorVersion s cfgP) [] [] (some "{major}") =
      .ok "{major}" := by
    simp [chooseGo]
  rw [step1, step2]
  exact h0

theorem parseMajor_all_digits (s : String) (cfgP : PartConfig) (h1 : s ≠ "")
    (h2 : ∀ c ∈ s.toList, c.isDigit = true) :
    parseMajor cfgP s =
      some { values := [("major", { rawValue := some s, config := cfgP })],
             original := some s } := by
  have hlist : s.toList ≠ [] := by
    intro hl
    apply h1
    cases s with
    | mk data =>
      simp [String.toList] at hl
      rw [hl]
  obtain ⟨c, cs, hcons⟩ := List.exists_cons_of_ne_nil hlist
  have hcd : c.isDigit = true := h2 c (by rw [hcons]; simp)
  have hdrop : s.toList.dropWhile (fun c => !c.isDigit) = s.toList := by
    apply dropWhile_eq_self_of_head
    intro x hx
    rw [hcons] at hx
    simp at hx
    subst hx
    simp [hcd]
  have htake : s.toList.takeWhile (fun c => c.isDigit) = s.toList :=
    takeWhile_eq_self_of_all _ _ h2
  have hrun : parseMajorRun s.toList = some s.toList := by
    unfold parseMajorRun
    dsimp only
    rw [hdrop, htake, hcons]
  have hmk : String.mk s.toList = s := by
    cases s
    rfl
  unfold parseMajor
  rw [if_neg h1, hrun]
  simp [hmk]

/-- C3 (amended): the round-trip holds exactly when the parse regex
re-captures each serialized part value; for the concrete single-numeric-
part schema (parse: one named group of one-plus digits; serialize:
the major placeholder alone) it holds for every version whose major part
stores a non-empty all-digit value, and it fails in general (see the
counterexample, where the stored value 1x is re-captured as 1). -/
theorem parse_serialize_roundtrip_digits (s : String) (cfgP : PartConfig)
    (h1 : s ≠ "") (h2 : ∀ c ∈ s.toList, c.isDigit = true) :
    serialize cfgC3 (mkMajorVersion s cfgP) [] = .ok s ∧
    ∃ w, parseMajor cfgP s = some w ∧
      (lookupD w.values "major").map VersionPart.value =
        (lookupD (mkMajorVersion s cfgP).values "major").map VersionPart.value := by
  refine ⟨serialize_mkMajor s cfgP h1, ?_⟩
  refine ⟨_, parseMajor_all_digits s cfgP h1 h2, ?_⟩
  rfl

/-- Witness for C3 at the all-digit value 10. -/
theorem parse_serialize_roundtrip_digits_witness :
    serialize cfgC3 (mkMajorVersion "10" NumericVersionPartConfiguration) [] = .ok "10" ∧
    ∃ w, parseMajor NumericVersionPartConfiguration "10" = some w ∧
      (lookupD w.values "major").map VersionPart.value =
        (lookupD (mkMajorVersion "10" NumericVersionPartConfiguration).values "major").map
          VersionPart.value :=
  parse_serialize_roundtrip_digits "10" NumericVersionPartConfiguration
    (by decide) (by decide)

/-- Counterexample for C3 as stated: the version storing major = 1x
serializes to 1x, which reparses successfully (not the unparsed
sentinel), but the reparsed major is 1, not 1x. -/
theorem parse_serialize_roundtrip_counterexample :
    serialize cfgC3 vBad3 [] = .ok "1x" ∧
    parseMajor NumericVersionPartConfiguration "1x" = some wBad3 ∧
    (lookupD wBad3.values "major").map VersionPart.value = some "1" ∧
    (lookupD vBad3.values "major").map VersionPart.value = some "1x" ∧
    ("1" : String) ≠ "1x" := by
  refine ⟨by decide, by decide, by decide, by decide, by decide⟩

/-! ### The multi-line contains window (C5) -/

theorem takeRight_of_length_le {α : Type} {n : Nat} {l : List α}
    (h : l.length ≤ n) : takeRight n l = l := by
  unfold takeRight
  rw [Nat.sub_eq_zero_of_le h, List.drop_zero]

theorem takeRight_cons_of_le {α : Type} {n : Nat} (a : α) {l : List α}
    (h : n ≤ l.length) : takeRight n (a :: l) = takeRight n l := by
  unfold takeRight
  have h1 : (a :: l).length - n = (l.length - n) + 1 := by
    rw [List.length_cons]
    omega
  rw [h1, List.drop_succ_cons]

theorem length_takeRight_le {α : Type} (n : Nat) (l : List α) :
    (takeRight n l).length ≤ n := by
  unfold takeRight
  rw [List.length_drop]
  omega

theorem takeRight_append_takeRight {α : Type} (n : Nat) :
    ∀ (l s : List α), takeRight n (takeRight n l ++ s) = takeRight n (l ++ s) := by
  intro l
  induction l with
  | nil =>
    intro s
    rw [takeRight_of_length_le (show List.length ([] : List α) ≤ n by simp)]
  | cons a l ih =>
    intro s
    by_cases h : (a :: l).length ≤ n
    · rw [takeRight_of_length_le h]
    · have h2 : n ≤ l.length := by
        rw [List.length_cons] at h
        omega
      have h3 : n ≤ (l ++ s).length := by
        rw [List.length_append]
        omega
      rw [takeRight_cons_of_le a h2, ih s,
        show (a :: l) ++ s = a :: (l ++ s) from rfl,
        takeRight_cons_of_le a h3]

theorem takeRight_take {α : Type} (n j : Nat) (l : List α)
    (hn : n ≤ j + 1) (hj : j + 1 ≤ l.length) :
    takeRight n (l.take (j + 1)) = (l.drop (j + 1 - n)).take n := by
  unfold takeRight
  rw [List.length_take]
  have hmin : min (j + 1) l.length = j + 1 := Nat.min_eq_left hj
  rw [hmin, List.drop_take]
  congr 1
  omega

/-- The loop of `contains` accepts exactly when some prefix of the file,
trimmed on the left to the search line count, passes the window test. -/
theorem containsGo_iff (sl : List String) :
    ∀ (rest lb : List String), lb.length ≤ sl.length →
      (containsGo sl lb rest = true ↔
        ∃ j, j < rest.length ∧
          matchWindow sl (takeRight sl.length (lb ++ rest.take (j + 1))) = true) := by
  intro rest
  induction rest with
  | nil =>
    intro lb hlb
    simp [containsGo]
  | cons line rest ih =>
    intro lb hlb
    have hchar : (if sl.length < (lb ++ [line]).length then (lb ++ [line]).drop 1
        else lb ++ [line]) = takeRight sl.length (lb ++ [line]) := by
      by_cases h : sl.length < (lb ++ [line]).length
      · rw [if_pos h]
        unfold takeRight
        have h1 : (lb ++ [line]).length - sl.length = 1 := by
          rw [List.length_append] at h ⊢
          simp only [List.length_cons, List.length_nil] at h ⊢
          omega
        rw [h1]
      · rw [if_neg h]
        rw [takeRight_of_length_le (Nat.le_of_not_lt h)]
    have hstep : containsGo sl lb (line :: rest) =
        if matchWindow sl (takeRight sl.length (lb ++ [line])) = true then true
        else containsGo sl (takeRight sl.length (lb ++ [line])) rest := by
      rw [containsGo]
      rw [hchar]
    have hshift : ∀ t : List String,
        (lb ++ [line]) ++ t = lb ++ (line :: rest).take (t.length / t.length)
          ++ t → True := fun _ _ => trivial
    rw [hstep]
    by_cases hm : matchWindow sl (takeRight sl.length (lb ++ [line])) = true
    · rw [if_pos hm]
      constructor
      · intro _
        refine ⟨0, by simp, ?_⟩
        have : (line :: rest).take 1 = [line] := rfl
        rw [this]
        exact hm
      · intro _
        rfl
    · rw [if_neg hm]
      rw [ih (takeRight sl.length (lb ++ [line])) (length_takeRight_le _ _)]
      constructor
      · rintro ⟨j, hj, hw⟩
        refine ⟨j + 1, by simpa using Nat.succ_lt_succ hj, ?_⟩
        rw [takeRight_append_takeRight] at hw
        have heq : (lb ++ [line]) ++ rest.take (j + 1) =
            lb ++ (line :: rest).take (j + 1 + 1) := by
          rw [List.take_succ_cons]
          simp
        rw [heq] at hw
        exact hw
      · rintro ⟨j, hj, hw⟩
        cases j with
        | zero =>
          have h1 : (line :: rest).take 1 = [line] := rfl
          rw [h1] at hw
          exact absurd hw hm
        | succ j =>
          refine ⟨j, ?_, ?_⟩
          · simp only [List.length_cons] at hj
            omega
          · rw [takeRight_append_takeRight]
            have heq : (lb ++ [line]) ++ rest.take (j + 1) =
                lb ++ (line :: rest).take (j + 1 + 1) := by
              rw [List.take_succ_cons]
              simp
            rw [heq]
            exact hw

/-- A short lookbehind passes the window test only for a two-line search
against a single buffered line. -/
theorem matchWindow_short (sl w : List String) (hsl : 2 ≤ sl.length)
    (hw1 : 1 ≤ w.length) (hlt : w.length < sl.length)
    (h : matchWindow sl w = true) : sl.length = 2 ∧ w.length = 1 := by
  unfold matchWindow at h
  simp only [Bool.and_eq_true, beq_iff_eq] at h
  have h3 := h.2
  have hlen : ((sl.drop 1).dropLast).length = ((w.drop 1).dropLast).length := by
    rw [h3]
  rw [List.length_dropLast, List.length_drop, List.length_dropLast,
    List.length_drop] at hlen
  omega

theorem matchWindow_eq_specWindowAtB (sl w : List String)
    (h : w.length = sl.length) : matchWindow sl w = specWindowAtB sl w := by
  unfold matchWindow specWindowAtB
  rw [h]
  simp

theorem containsSpecB_iff (sl fileLines : List String) :
    containsSpecB sl fileLines = true ↔
      ∃ i, i + sl.length ≤ fileLines.length ∧
        specWindowAtB sl ((fileLines.drop i).take sl.length) = true := by
  unfold containsSpecB
  rw [List.any_eq_true]
  constructor
  · rintro ⟨i, hmem, hcond⟩
    simp only [Bool.and_eq_true, decide_eq_true_eq] at hcond
    exact ⟨i, hcond.1, hcond.2⟩
  · rintro ⟨i, hle, hsw⟩
    refine ⟨i, List.mem_range.mpr (by omega), ?_⟩
    simp [hle, hsw]

theorem matchWindow_singleton (sl : List String) (l0 : String)
    (h2 : sl.length = 2) :
    matchWindow sl [l0] =
      (isSubstr (sl.headD "") l0 && isSubstr (sl.getLastD "") l0) := by
  unfold matchWindow
  have hint : (sl.drop 1).dropLast = ([] : List String) := by
    apply List.eq_nil_of_length_eq_zero
    rw [List.length_dropLast, List.length_drop, h2]
  rw [hint]
  simp

/-- C5 (amended): for a search of at least two lines, `contains` holds
exactly when either some window of consecutive file lines of the search's
line count passes the first-substring / last-substring / interior-equal
test, or the search has exactly two lines and both occur as substrings of
the very first file line (the loop also tests its partially filled
lookbehind buffer, which at the first line holds a single line standing
for both the first and the last window line). -/
theorem contains_window_spec (fileLines : List String) (search : String)
    (hml : 2 ≤ (splitLinesPy search).length) :
    containsStr fileLines search = true ↔
      (containsSpecB (splitLinesPy search) fileLines = true ∨
        ((splitLinesPy search).length = 2 ∧
          firstLineBothB (splitLinesPy search) fileLines = true)) := by
  have hne : search ≠ "" := by
    intro he
    subst he
    have h0 : splitLinesPy "" = [] := rfl
    rw [h0] at hml
    simp at hml
  unfold containsStr
  rw [if_neg hne]
  generalize hg : splitLinesPy search = sl at hml ⊢
  rw [containsGo_iff sl fileLines [] (by simp)]
  simp only [List.nil_append]
  constructor
  · rintro ⟨j, hj, hw⟩
    by_cases hcase : sl.length ≤ j + 1
    · left
      rw [takeRight_take sl.length j fileLines hcase (by omega)] at hw
      set i := j + 1 - sl.length with hi
      have hile : i + sl.length ≤ fileLines.length := by omega
      have hwl : ((fileLines.drop i).take sl.length).length = sl.length := by
        rw [List.length_take, List.length_drop]
        omega
      rw [containsSpecB_iff]
      refine ⟨i, hile, ?_⟩
      rw [← matchWindow_eq_specWindowAtB sl _ hwl]
      exact hw
    · right
      have hjlt : j + 1 < sl.length := by omega
      have htr : takeRight sl.length (fileLines.take (j + 1)) =
          fileLines.take (j + 1) := by
        apply takeRight_of_length_le
        rw [List.length_take]
        omega
      rw [htr] at hw
      have hwl : (fileLines.take (j + 1)).length = j + 1 := by
        rw [List.length_take]
        omega
      have hshort := matchWindow_short sl (fileLines.take (j + 1)) hml
        (by omega) (by omega) hw
      have hn2 : sl.length = 2 := hshort.1
      have hj0 : j = 0 := by omega
      subst hj0
      refine ⟨hn2, ?_⟩
      obtain ⟨l0, rest0, hcons⟩ := List.exists_cons_of_ne_nil
        (List.ne_nil_of_length_pos (by omega : 0 < fileLines.length))
      rw [hcons] at hw
      have h1 : (l0 :: rest0).take 1 = [l0] := rfl
      rw [h1, matchWindow_singleton sl l0 hn2] at hw
      unfold firstLineBothB
      rw [hcons]
      exact hw
  · rintro (hspec | ⟨hn2, hfirst⟩)
    · rw [containsSpecB_iff] at hspec
      obtain ⟨i, hile, hsw⟩ := hspec
      obtain ⟨m, hm⟩ : ∃ m, sl.length = m + 1 := ⟨sl.length - 1, by omega⟩
      refine ⟨i + m, by omega, ?_⟩
      have hj1 : (i + m) + 1 = i + sl.length := by omega
      rw [hj1]
      have hrw : takeRight sl.length (fileLines.take (i + sl.length)) =
          (fileLines.drop i).take sl.length := by
        have hth := takeRight_take sl.length (i + m) fileLines
          (by omega) (by omega)
        rw [hj1] at hth
        have harg : i + sl.length - sl.length = i := by omega
        rw [harg] at hth
        exact hth
      rw [hrw]
      have hwl : ((fileLines.drop i).take sl.length).length = sl.length := by
        rw [List.length_take, List.length_drop]
        omega
      rw [matchWindow_eq_specWindowAtB sl _ hwl]
      exact hsw
    · obtain ⟨l0, rest0, hcons⟩ : ∃ l0 rest0, fileLines = l0 :: rest0 := by
        cases hfl : fileLines with
        | nil =>
          rw [hfl] at hfirst
          simp [firstLineBothB] at hfirst
        | cons l0 rest0 => exact ⟨l0, rest0, rfl⟩
      refine ⟨0, by rw [hcons]; simp, ?_⟩
      rw [hcons]
      have h1 : (l0 :: rest0).take 1 = [l0] := rfl
      rw [h1]
      have htr : takeRight sl.length [l0] = [l0] := by
        apply takeRight_of_length_le
        simp
        omega
      rw [htr, matchWindow_singleton sl l0 hn2]
      rw [hcons] at hfirst
      unfold firstLineBothB at hfirst
      exact hfirst

/-- Counterexample for C5 as stated: the two-line search a-newline-b is
reported contained in the single-line file ab, although no two-line
window exists. -/
theorem contains_window_counterexample :
    containsStr ["ab"] "a\nb" = true ∧
    containsSpecB (splitLinesPy "a\nb") ["ab"] = false := by
  refine ⟨by decide, by decide⟩

/-- Witness for the amended C5: the two-line search a-newline-b against
the two-line file xa, by: a genuine window match. -/
theorem contains_window_spec_witness :
    containsStr ["xa", "by"] "a\nb" = true ↔
      (containsSpecB (splitLinesPy "a\nb") ["xa", "by"] = true ∨
        ((splitLinesPy "a\nb").length = 2 ∧
          firstLineBothB (splitLinesPy "a\nb") ["xa", "by"] = true)) :=
  contains_window_spec ["xa", "by"] "a\nb" (by decide)

/-! ### should_contain_version (C4) -/

/-- C4: when serialization and the search-template expansion succeed,
`should_contain_version` returns normally exactly when the file contains
the expanded search expression, or the search template is the unmodified
default and the file contains the literal original string; in every other
case it raises version-not-found, and it raises no other error. -/
theorem should_contain_version_iff (cfg : VersionConfig) (fileLines : List String)
    (version : Version) (ctx : List (String × String)) (cur expr : String)
    (hs : serialize cfg version ctx = .ok cur)
    (hr : renderSegs (formatParse cfg.search)
      (fun k => lookupD (dictUpd ctx "current_version" cur) k) = .ok expr) :
    (shouldContainVersion cfg fileLines version ctx = .ok () ↔
      (containsStr fileLines expr = true ∨
        (cfg.search = "{current_version}" ∧
          containsOptStr fileLines version.original = true))) ∧
    (∀ e, shouldContainVersion cfg fileLines version ctx = .error e →
      e = .versionNotFound expr) := by
  unfold shouldContainVersion
  rw [hs]
  dsimp only
  rw [hr]
  dsimp only
  constructor
  · constructor
    · intro hok
      by_cases h1 : containsStr fileLines expr = true
      · exact Or.inl h1
      · rw [if_neg h1] at hok
        by_cases h2 : (decide (cfg.search = "{current_version}") &&
            containsOptStr fileLines version.original) = true
        · right
          simpa using h2
        · rw [if_neg h2] at hok
          simp at hok
    · intro hor
      rcases hor with h1 | ⟨h2a, h2b⟩
      · rw [if_pos h1]
      · by_cases h1 : containsStr fileLines expr = true
        · rw [if_pos h1]
        · rw [if_neg h1, if_pos (by simp [h2a, h2b])]
  · intro e he
    by_cases h1 : containsStr fileLines expr = true
    · rw [if_pos h1] at he
      simp at he
    · rw [if_neg h1] at he
      by_cases h2 : (decide (cfg.search = "{current_version}") &&
          containsOptStr fileLines version.original) = true
      · rw [if_pos h2] at he
        simp at he
      · rw [if_neg h2] at he
        simp at he
        exact he.symm

/-- Witness for C4 on a concrete file: the default search template
expands to the serialized version 1, which the file contains. -/
theorem should_contain_version_iff_witness :
    shouldContainVersion cfgC3 ["version 1"] vW4 [] = .ok () ↔
      (containsStr ["version 1"] "1" = true ∨
        (cfgC3.search = "{current_version}" ∧
          containsOptStr ["version 1"] vW4.original = true)) :=
  (should_contain_version_iff cfgC3 ["version 1"] vW4 [] "1" "1"
    (by decide) (by decide)).1

/-! ### should_contain_version never writes (C9) -/

theorem containsFS_readonly (fs : FS) (path : String) (search : Option String) :
    (containsFS fs path search).2 = fs := by
  cases search with
  | none => rfl
  | some s =>
    by_cases he : s = ""
    · simp [containsFS, he]
    · simp only [containsFS, if_neg he]
      cases hl : lookupD fs path with
      | none => simp [readFileFS, hl]
      | some content => simp [readFileFS, hl]

/-- C9: `should_contain_version` (and the `contains` checks it performs)
leaves the file system exactly as it found it, whether it returns
normally or raises. -/
theorem should_contain_version_readonly (cfg : VersionConfig) (fs : FS)
    (path : String) (version : Version) (ctx : List (String × String)) :
    (shouldContainVersionFS cfg fs path version ctx).2 = fs := by
  unfold shouldContainVersionFS
  cases hs : serialize cfg version ctx with
  | error e => rfl
  | ok cur =>
    dsimp only
    cases hr : renderSegs (formatParse cfg.search)
        (fun k => lookupD (dictUpd ctx "current_version" cur) k) with
    | error k => rfl
    | ok expr =>
      dsimp only
      have h2 := containsFS_readonly fs path (some expr)
      cases hp1 : (containsFS fs path (some expr)).1 with
      | error e =>
        dsimp only
        exact h2
      | ok b =>
        cases b with
        | true =>
          dsimp only
          exact h2
        | false =>
          dsimp only
          by_cases hd : cfg.search = "{current_version}"
          · rw [if_pos hd]
            have h3 := containsFS_readonly (containsFS fs path (some expr)).2
              path version.original
            cases hp2 : (containsFS (containsFS fs path (some expr)).2 path
                version.original).1 with
            | error e =>
              dsimp only
              rw [h3]
              exact h2
            | ok b2 =>
              cases b2 with
              | true =>
                dsimp only
                rw [h3]
                exact h2
              | false =>
                dsimp only
                rw [h3]
                exact h2
          · rw [if_neg hd]
            exact h2

/-! ### The replace fallback (C8) -/

/-- C8: when the configured substitution (the pyproject regex rule or the
plain search-to-replace rewrite) leaves the content unchanged, the
rewriter performs one additional plain replacement of the literally
parsed original version string with the expanded replace expression —
with no condition on the search template being the default (no such
hypothesis appears below). -/
theorem replace_fallback_unconditional (cfg : VersionConfig) (isPyproject : Bool)
    (current newVersion : Version) (ctx : List (String × String)) (content : String)
    (cur nv searchFor replaceWith orig : String)
    (hs1 : serialize cfg current ctx = .ok cur)
    (hs2 : serialize cfg newVersion (dictUpd ctx "current_version" cur) = .ok nv)
    (hr1 : renderSegs (formatParse cfg.search)
      (fun k => lookupD (dictUpd (dictUpd ctx "current_version" cur) "new_version" nv) k) =
        .ok searchFor)
    (hr2 : renderSegs (formatParse cfg.replace)
      (fun k => lookupD (dictUpd (dictUpd ctx "current_version" cur) "new_version" nv) k) =
        .ok replaceWith)
    (horig : current.original = some orig)
    (hunchanged : (if isPyproject then pyprojectSub searchFor replaceWith content
      else pythonReplace content searchFor replaceWith) = content) :
    replaceTransform cfg isPyproject current newVersion ctx content =
      .ok (pythonReplace content orig replaceWith) := by
  unfold replaceTransform
  rw [hs1]
  dsimp only
  rw [hs2]
  dsimp only
  rw [hr1]
  dsimp only
  rw [hr2]
  dsimp only
  rw [hunchanged, if_pos rfl, horig]

/-- Witness for C8 with a customized (non-default) search template: the
expanded search v1 does not occur in the content, so the fallback
replaces the original 1*2 anyway. -/
theorem replace_fallback_unconditional_witness :
    replaceTransform cfgW8 false currW8 newW8 [] "ver 1*2 end" =
      .ok (pythonReplace "ver 1*2 end" "1*2" "2") ∧
    cfgW8.search ≠ "{current_version}" :=
  ⟨replace_fallback_unconditional cfgW8 false currW8 newW8 [] "ver 1*2 end"
    "1" "2" "v1" "2" "1*2" (by decide) (by decide) (by decide) (by decide)
    (by decide) (by decide), by decide⟩

end Bumpversion
